import Mathlib

/-!
Verification of the evergreen PMF core (`PMF.hpp`): a PMF couples an
integer support-origin vector with a dense probability grid.  Grids are
modelled as a shape vector together with a row-major flat list of exact
rationals (the C++ uses `double`; we use `ℚ`, so the floating-point
tolerances of the informal properties become exact equalities).  The
dense-grid container, bounding-box detector, convolution and marginal
reduction primitives are not part of the translation unit and are
modelled from the specification's contracts for them.
-/

namespace Evergreen

/-- Row-major flat index of coordinate tuple `idx` in a grid of shape
`shape` (the `tuple_to_index` helper of the dense-grid container). -/
def tupleToIndex : List ℕ → List ℕ → ℕ
  | i :: is, _ :: ss => i * ss.prod + tupleToIndex is ss
  | _, _ => 0

/-- All coordinate tuples of a shape, enumerated in row-major order
(the order in which `enumerate_for_each_tensors` visits cells). -/
def allTuples : List ℕ → List (List ℕ)
  | [] => [[]]
  | s :: ss => (List.range s).flatMap fun i => (allTuples ss).map (i :: ·)

/-- Modelled from the spec: the dense-grid container `Tensor<double>`
(an external utility of the evergreen library, not part of `PMF.hpp`):
a rectangular multi-dimensional array stored as a shape vector plus a
row-major flat value list. -/
structure Tensor where
  shape : List ℕ
  flat : List ℚ
deriving DecidableEq, Repr

/-- Rank of the grid (`Tensor::dimension`). -/
def Tensor.dimension (t : Tensor) : ℕ := t.shape.length

/-- Value stored at coordinate tuple `idx` (row-major addressing via
`tuple_to_index`); out-of-range reads default to `0`. -/
def Tensor.get (t : Tensor) (idx : List ℕ) : ℚ :=
  t.flat.getD (tupleToIndex idx t.shape) 0

/-- The flat storage has exactly one entry per grid cell. -/
def Tensor.wf (t : Tensor) : Prop := t.flat.length = t.shape.prod

/-- Build a grid of a given shape from a per-cell value function
(row-major fill, as `enumerate_for_each_tensors` would produce). -/
def Tensor.ofFn (shape : List ℕ) (f : List ℕ → ℚ) : Tensor :=
  ⟨shape, (allTuples shape).map f⟩

/-- `PMF::normalize` (PMF.hpp:29-36, production path): divide the whole
flat storage by its total mass. -/
def Tensor.normalize (t : Tensor) : Tensor :=
  { t with flat := t.flat.map (· / t.flat.sum) }

/-- Modelled from the spec: the dense-grid `shrink` primitive
(in-place shrink-to-subregion): keep the axis-aligned subregion that
starts at offset `start` and has extent `extent`. -/
def Tensor.shrink (t : Tensor) (start extent : List ℕ) : Tensor :=
  Tensor.ofFn extent fun idx => t.get (List.zipWith (· + ·) start idx)

/-- Apply an axis-index list to a vector: entry `i` of the result is
entry `order[i]` of `l` (the reindexing loop used by `PMF::transpose`
and `PMF::marginal` for support vectors and shapes). -/
def permute {α : Type} (d : α) (order : List ℕ) (l : List α) : List α :=
  order.map fun a => l.getD a d

/-- The inverse of a permutation of `[0, d)`, as a list: entry `i` is
the position of `i` inside `order`. -/
def invPerm (order : List ℕ) : List ℕ :=
  (List.range order.length).map fun i => order.indexOf i

/-- `order` is a permutation of the axis indices `[0, d)` (what
`verify_permutation` checks in validated builds). -/
def IsPermOf (order : List ℕ) (d : ℕ) : Prop := order.Perm (List.range d)

/-- Modelled from the spec: the dense-grid axis-permutation primitive
`::transpose(_table, new_order)`: axis `i` of the result is axis
`new_order[i]` of the input grid. -/
def Tensor.transpose (t : Tensor) (order : List ℕ) : Tensor :=
  Tensor.ofFn (permute 0 order t.shape) fun j => t.get (permute 0 (invPerm order) j)

/-- The per-axis index flip used by `p_sub` (PMF.hpp:236-237):
`counter_flipped[i] = data_shape()[i] - counter[i] - 1`. -/
def flipIdx (shape idx : List ℕ) : List ℕ :=
  List.zipWith (fun n i => n - i - 1) shape idx

/-- The flipped copy of the right-hand grid built by the `p_sub` loop
(PMF.hpp:231-242).  The C++ loop scatters `rhs_table_flipped[flip c] = rhs[c]`
over all cells `c`; since `flipIdx` is an involution on in-range tuples
this is the grid of the same shape reading the original at the flipped
index, which is how it is written here (the scatter equation itself is
proved as `p_sub_reverses_rhs`). -/
def Tensor.reverseAll (t : Tensor) : Tensor :=
  Tensor.ofFn t.shape fun idx => t.get (flipIdx t.shape idx)

/-- Modelled from the spec: `numeric_p_convolve`, the generalized
convolution of two equal-rank grids.  The result extent per axis is
`m + n - 1`, and at the canonical parameter `p = 1` the cell at `k`
holds the ordinary convolution sum over all decompositions `k = i + j`.
The spec leaves the combination semantics at other `p` open ("treat
other `p` values as an open question"), so the model uses the canonical
combination for every `p`; the parameter is threaded to mirror the
interface. -/
def convShape (sa sb : List ℕ) : List ℕ := List.zipWith (fun m n => m + n - 1) sa sb

/-- Elementwise truncated difference of index tuples. -/
def subIdx (k i : List ℕ) : List ℕ := List.zipWith (fun x y => x - y) k i

/-- One output cell of the convolution: sum of `a_i * b_(k-i)` over the
decompositions of `k` with both factors in range. -/
def convCell (a b : Tensor) (k : List ℕ) : ℚ :=
  ((allTuples a.shape).map fun i =>
    if List.Forall₂ (· ≤ ·) i k ∧ List.Forall₂ (· < ·) (subIdx k i) b.shape
    then a.get i * b.get (subIdx k i) else 0).sum

def numeric_p_convolve (a b : Tensor) (p : ℚ) : Tensor :=
  Tensor.ofFn (convShape a.shape b.shape) (convCell a b)

/-- Grid cells whose value exceeds the relative mass threshold, i.e.
`value > tau * total`. -/
def qualifyingTuples (t : Tensor) (tau : ℚ) : List (List ℕ) :=
  (allTuples t.shape).filter fun idx => decide (tau * t.flat.sum < t.get idx)

/-- Modelled from the spec: the bounding-box detector
`nonzero_bounding_box(table, threshold)`: per-axis inclusive
first/last offsets of the tightest axis-aligned box containing every
cell whose value exceeds `threshold` relative to the total mass. -/
def nonzero_bounding_box (t : Tensor) (tau : ℚ) : List ℕ × List ℕ :=
  ((List.range t.shape.length).map fun a =>
      (((qualifyingTuples t tau).map fun idx => idx.getD a 0).min?).getD 0,
   (List.range t.shape.length).map fun a =>
      (((qualifyingTuples t tau).map fun idx => idx.getD a 0).max?).getD 0)

/-- `PMF` (PMF.hpp:13-216): an integer support-origin vector coupled
with a dense probability grid. -/
structure PMF where
  first_support : List ℤ
  table : Tensor
deriving DecidableEq, Repr

namespace PMF

/-- PMF.hpp:15. -/
def mass_threshold_for_normalization : ℚ := 0

/-- PMF.hpp:16. -/
def relative_mass_threshold_for_bounding_box : ℚ := 0

/-- `PMF::dimension` (PMF.hpp:151-153). -/
def dimension (q : PMF) : ℕ := q.first_support.length

/-- `PMF::last_support` (PMF.hpp:165-167):
`_first_support + _table.view_shape() - 1L`. -/
def last_support (q : PMF) : List ℤ :=
  List.zipWith (fun f n => f + n - 1) q.first_support (q.table.shape.map Int.ofNat)

/-- The per-axis intersecting lower bound computed by
`PMF::narrow_support` (PMF.hpp:129):
`intersecting_first_support[i] = max(_first_support[i], new_first_support[i])`. -/
def interFirst (q : PMF) (nf : List ℤ) : List ℤ :=
  List.zipWith max q.first_support nf

/-- The per-axis clamped upper bound computed by `PMF::narrow_support`
(PMF.hpp:128): `new_last = min(new_last_support[i],
_first_support[i] + data_shape()[i] - 1)` (the copy
`intersecting_first_support[i]` still equals `_first_support[i]` at
that point). -/
def newLast (q : PMF) (nl : List ℤ) : List ℤ :=
  List.zipWith min nl
    (List.zipWith (fun f n => f + n - 1) q.first_support (q.table.shape.map Int.ofNat))

/-- The subgrid retained by `PMF::narrow_support` before renormalizing:
`_table.shrink(tensor_start, new_shape)` (PMF.hpp:144-145) with
`tensor_start = intersecting_first_support - _first_support` and
`new_shape[i] = new_last - intersecting_first_support[i] + 1`
(casts to `unsigned long` modelled by `Int.toNat`). -/
def retained (q : PMF) (nf nl : List ℤ) : Tensor :=
  q.table.shrink
    (List.zipWith (fun a b => (a - b).toNat) (q.interFirst nf) q.first_support)
    (List.zipWith (fun a b => (a - b + 1).toNat) (q.newLast nl) (q.interFirst nf))

/-- `PMF::narrow_support` (PMF.hpp:116-149), production path: shrink the
grid to the intersection of the requested box with the current box,
renormalize, and adopt the intersecting lower bound as the new origin. -/
def narrow_support (q : PMF) (nf nl : List ℤ) : PMF :=
  ⟨q.interFirst nf, (q.retained nf nl).normalize⟩

/-- `PMF::narrow_to_nonzero_support` (PMF.hpp:23-27): narrow to the
nonzero bounding box of the current grid, expressed in absolute
support coordinates. -/
def narrow_to_nonzero_support (q : PMF) : PMF :=
  q.narrow_support
    (List.zipWith (· + ·) q.first_support
      ((nonzero_bounding_box q.table relative_mass_threshold_for_bounding_box).1.map Int.ofNat))
    (List.zipWith (· + ·) q.first_support
      ((nonzero_bounding_box q.table relative_mass_threshold_for_bounding_box).2.map Int.ofNat))

/-- The public validating constructor `PMF(sup, tab)` (PMF.hpp:45-58),
production path: normalize, then narrow to the nonzero support. -/
def construct (sup : List ℤ) (tab : Tensor) : PMF :=
  narrow_to_nonzero_support ⟨sup, tab.normalize⟩

/-- Modelled from the spec: the default-constructed PMF `PMF()`
(PMF.hpp:42-43) leaves a default dimension-0 state, which the spec
describes as "a scalar, unit PMF" — the rank-0 grid whose single cell
holds mass 1. -/
def default : PMF := ⟨[], ⟨[], [1]⟩⟩

/-- `PMF::transpose` (PMF.hpp:203-215): permute the origin vector
(`new_first_support[i] = _first_support[new_order[i]]`) and the grid
axes. -/
def transpose (q : PMF) (order : List ℕ) : PMF :=
  ⟨permute 0 order q.first_support, q.table.transpose order⟩

/-- `PMF::transposed` (PMF.hpp:190-201): value-semantics copy plus
`transpose`; no renormalization. -/
def transposed (q : PMF) (order : List ℕ) : PMF := q.transpose order

/-- Modelled from the spec: the `::marginal(table, axes_to_keep, p)`
reduction primitive (marginal.hpp is outside the translation unit):
aggregate the mass along every dropped axis.  At the canonical `p = 1`
this is the marginal sum; the spec leaves other `p` open, so the model
uses the canonical sum for every `p` (the parameter is threaded to
mirror the interface). -/
def marginalTensor (t : Tensor) (keep : List ℕ) (p : ℚ) : Tensor :=
  Tensor.ofFn (permute 0 keep t.shape) fun kt =>
    ((allTuples (permute 0 ((List.range t.shape.length).filter fun a => !(keep.contains a)) t.shape)).map
      fun dt => t.get ((List.range t.shape.length).map fun a =>
        if keep.contains a then kt.getD (keep.indexOf a) 0
        else dt.getD (((List.range t.shape.length).filter fun a => !(keep.contains a)).indexOf a) 0)).sum

/-- `PMF::marginal` (PMF.hpp:169-188), production path: keep-all
degenerates to a transpose, keep-none returns the default rank-0 PMF,
otherwise reduce the grid and route through full construction. -/
def marginal (q : PMF) (keep : List ℕ) (p : ℚ) : PMF :=
  if keep.length = q.dimension then q.transposed keep
  else if keep.length = 0 then default
  else construct (permute 0 keep q.first_support) (marginalTensor q.table keep p)

/-- The validated-build public constructor: `SHAPE_CHECK` asserts the
rank match (PMF.hpp:50), `NUMERIC_CHECK` asserts nonnegativity
(PMF.hpp:38-40,53) and, inside `normalize`, strictly-positive total
mass (PMF.hpp:31-33).  A failed assertion aborts, modelled as `none`. -/
def construct? (sup : List ℤ) (tab : Tensor) : Option PMF :=
  if sup.length = tab.dimension ∧ (∀ x ∈ tab.flat, 0 ≤ x)
      ∧ mass_threshold_for_normalization < tab.flat.sum
  then some (construct sup tab) else none

/-- The validated-build `narrow_support`: `SHAPE_CHECK` asserts the
rank matches (PMF.hpp:118), `new_first_support <= new_last_support`
(PMF.hpp:119), and per axis that the intersection with the current box
is non-empty (`new_shape_i > 0`, PMF.hpp:132-137).  A failed assertion
aborts, modelled as `none`. -/
def narrow_support? (q : PMF) (nf nl : List ℤ) : Option PMF :=
  if q.dimension = nf.length ∧ nf.length = nl.length
      ∧ List.Forall₂ (· ≤ ·) nf nl
      ∧ (∀ i < nl.length, 0 < (q.newLast nl).getD i 0 - (q.interFirst nf).getD i 0 + 1)
  then some (q.narrow_support nf nl) else none

/-- The PMF class invariants a caller-visible PMF satisfies (spec §3,
items 1-3): matching rank, well-formed storage, nonnegative entries,
and unit total mass. -/
def Valid (q : PMF) : Prop :=
  q.first_support.length = q.table.shape.length ∧ q.table.wf
    ∧ (∀ x ∈ q.table.flat, 0 ≤ x) ∧ q.table.flat.sum = 1

end PMF

/-- The free combinator `p_add` (PMF.hpp:218-224): convolve the two
grids and construct at the summed origins. -/
def p_add (lhs rhs : PMF) (p : ℚ) : PMF :=
  PMF.construct (List.zipWith (· + ·) lhs.first_support rhs.first_support)
    (numeric_p_convolve lhs.table rhs.table p)

/-- The free combinator `p_sub` (PMF.hpp:226-245): convolve `lhs` with
the flipped `rhs` grid and construct at `lhs.first_support - rhs.last_support`. -/
def p_sub (lhs rhs : PMF) (p : ℚ) : PMF :=
  PMF.construct (List.zipWith (· - ·) lhs.first_support (rhs.last_support))
    (numeric_p_convolve lhs.table rhs.table.reverseAll p)

/-- First-offset vector of the nonzero bounding box at the configured
threshold. -/
def boxFirst (t : Tensor) : List ℕ :=
  (nonzero_bounding_box t PMF.relative_mass_threshold_for_bounding_box).1

/-- Last-offset vector of the nonzero bounding box at the configured
threshold. -/
def boxLast (t : Tensor) : List ℕ :=
  (nonzero_bounding_box t PMF.relative_mass_threshold_for_bounding_box).2

/-- Per-axis extent of the nonzero bounding box. -/
def boxExtent (t : Tensor) : List ℕ :=
  List.zipWith (fun l f => l - f + 1) (boxLast t) (boxFirst t)

/-- The minimal-support invariant (spec §3, item 4): every first and
last axis-aligned boundary slice of the grid contains a cell whose
value exceeds the relative mass threshold. -/
def Tensor.minimalSupport (t : Tensor) (tau : ℚ) : Prop :=
  ∀ a < t.shape.length,
    (∃ idx, List.Forall₂ (· < ·) idx t.shape ∧ idx.getD a 0 = 0
      ∧ tau * t.flat.sum < t.get idx) ∧
    (∃ idx, List.Forall₂ (· < ·) idx t.shape ∧ idx.getD a 0 = t.shape.getD a 0 - 1
      ∧ tau * t.flat.sum < t.get idx)

theorem getD_map_lt {α β : Type} (f : α → β) (l : List α) (n : ℕ) (h : n < l.length)
    (d : β) (da : α) : (l.map f).getD n d = f (l.getD n da) := by
  rw [List.getD_eq_getElem (l.map f) d (by simpa using h), List.getD_eq_getElem l da h,
    List.getElem_map]

theorem getD_flatMap_const {α β : Type} (l : List α) (f : α → List β) (P : ℕ)
    (hP : ∀ a ∈ l, (f a).length = P) :
    ∀ (i r : ℕ), i < l.length → r < P → ∀ (d : β) (da : α),
      (l.flatMap f).getD (i * P + r) d = (f (l.getD i da)).getD r d := by
  induction l with
  | nil => intro i r hi; exact absurd hi (Nat.not_lt_zero i)
  | cons a t ih =>
    intro i r hi hr d da
    rw [List.flatMap_cons]
    cases i with
    | zero =>
      rw [Nat.zero_mul, Nat.zero_add]
      rw [List.getD_append _ _ _ _ (by rw [hP a (List.mem_cons_self a t)]; exact hr)]
      rfl
    | succ j =>
      have hlen : (f a).length = P := hP a (List.mem_cons_self a t)
      have hidx : (f a).length ≤ (j + 1) * P + r := by
        rw [hlen, Nat.succ_mul]
        omega
      rw [List.getD_append_right _ _ _ _ hidx]
      have harith : (j + 1) * P + r - (f a).length = j * P + r := by
        rw [hlen, Nat.succ_mul]; omega
      rw [harith]
      have := ih (fun x hx => hP x (List.mem_cons_of_mem a hx)) j r
        (Nat.lt_of_succ_lt_succ hi) hr d da
      simpa using this

theorem length_allTuples (s : List ℕ) : (allTuples s).length = s.prod := by
  induction s with
  | nil => rfl
  | cons a ss ih =>
    have h : ∀ l : List ℕ, (l.flatMap fun i => (allTuples ss).map (i :: ·)).length
        = l.length * (allTuples ss).length := by
      intro l
      induction l with
      | nil => simp
      | cons x xs ihl => simp [List.flatMap_cons, ihl, Nat.succ_mul, Nat.add_comm]
    simp [allTuples, h, ih, List.prod_cons, Nat.mul_comm]

theorem mem_allTuples {s idx : List ℕ} :
    idx ∈ allTuples s ↔ List.Forall₂ (· < ·) idx s := by
  induction s generalizing idx with
  | nil =>
    simp only [allTuples, List.mem_singleton]
    constructor
    · rintro rfl; exact List.Forall₂.nil
    · intro h; cases h; rfl
  | cons a ss ih =>
    simp only [allTuples, List.mem_flatMap, List.mem_map, List.mem_range]
    constructor
    · rintro ⟨i, hi, t, ht, rfl⟩
      exact List.Forall₂.cons hi (ih.mp ht)
    · intro h
      cases h with
      | cons hab h => exact ⟨_, hab, _, ih.mpr h, rfl⟩

theorem tupleToIndex_lt {s idx : List ℕ} (h : List.Forall₂ (· < ·) idx s) :
    tupleToIndex idx s < s.prod := by
  induction h with
  | nil => exact Nat.zero_lt_one
  | @cons i a is ss hia _ ih =>
    simp only [tupleToIndex, List.prod_cons]
    calc i * ss.prod + tupleToIndex is ss < i * ss.prod + ss.prod := by omega
      _ = (i + 1) * ss.prod := by rw [Nat.succ_mul]
      _ ≤ a * ss.prod := Nat.mul_le_mul_right _ hia

theorem allTuples_getD {s idx : List ℕ} (h : List.Forall₂ (· < ·) idx s) :
    (allTuples s).getD (tupleToIndex idx s) [] = idx := by
  induction h with
  | nil => rfl
  | @cons i a is ss hia hrest ih =>
    simp only [allTuples, tupleToIndex]
    have hP : tupleToIndex is ss < (allTuples ss).length := by
      rw [length_allTuples]; exact tupleToIndex_lt hrest
    have harith : i * ss.prod + tupleToIndex is ss
        = i * (allTuples ss).length + tupleToIndex is ss := by
      rw [length_allTuples]
    rw [harith, getD_flatMap_const (List.range a) _ ((allTuples ss).length)
      (fun x _ => List.length_map _ _) i (tupleToIndex is ss)
      (by simpa using hia) hP [] 0]
    rw [List.getD_eq_getElem (List.range a) 0 (by simpa using hia), List.getElem_range]
    rw [getD_map_lt _ _ _ (by rw [length_allTuples]; exact tupleToIndex_lt hrest) [] []]
    rw [ih]

theorem getD_map_allTuples {α : Type} {s idx : List ℕ} {f : List ℕ → α} {d : α}
    (h : List.Forall₂ (· < ·) idx s) :
    ((allTuples s).map f).getD (tupleToIndex idx s) d = f idx := by
  have hlt : tupleToIndex idx s < (allTuples s).length := by
    rw [length_allTuples]; exact tupleToIndex_lt h
  rw [getD_map_lt f _ _ hlt d [], allTuples_getD h]

theorem range_mul_flatMap (s P : ℕ) :
    (List.range s).flatMap (fun i => (List.range P).map (i * P + ·)) = List.range (s * P) := by
  induction s with
  | zero => simp
  | succ n ih =>
    rw [List.range_succ, List.flatMap_append, ih, Nat.succ_mul, List.range_add]
    simp

theorem map_tupleToIndex_allTuples (s : List ℕ) :
    (allTuples s).map (tupleToIndex · s) = List.range s.prod := by
  induction s with
  | nil =>
    have h1 : List.range 1 = [0] := by decide
    simp [allTuples, tupleToIndex, h1]
  | cons a ss ih =>
    simp only [allTuples, List.map_flatMap, List.map_map]
    have hcell : ∀ i : ℕ, ((allTuples ss).map ((tupleToIndex · (a :: ss)) ∘ (i :: ·)))
        = ((allTuples ss).map (tupleToIndex · ss)).map (i * ss.prod + ·) := by
      intro i
      rw [List.map_map]
      exact List.map_congr_left fun t _ => rfl
    calc (List.range a).flatMap (fun i => (allTuples ss).map ((tupleToIndex · (a :: ss)) ∘ (i :: ·)))
        = (List.range a).flatMap (fun i => (List.range ss.prod).map (i * ss.prod + ·)) := by
          refine List.flatMap_congr ?_
          intro i _
          rw [hcell i, ih]
      _ = List.range (a * ss.prod) := range_mul_flatMap a ss.prod
      _ = List.range ((a :: ss).prod) := by rw [List.prod_cons]

theorem range_map_getD {α : Type} (l : List α) (d : α) :
    (List.range l.length).map (fun i => l.getD i d) = l := by
  apply List.ext_getElem
  · simp
  · intro i h1 h2
    simp only [List.getElem_map, List.getElem_range]
    rw [List.getD_eq_getElem l d h2]

theorem nodup_allTuples (s : List ℕ) : (allTuples s).Nodup := by
  have h := map_tupleToIndex_allTuples s
  have : ((allTuples s).map (tupleToIndex · s)).Nodup := by
    rw [h]; exact List.nodup_range _
  exact this.of_map _

theorem Tensor.ofFn_wf (shape : List ℕ) (f : List ℕ → ℚ) : (Tensor.ofFn shape f).wf := by
  simp [Tensor.ofFn, Tensor.wf, length_allTuples]

theorem Tensor.get_ofFn {shape idx : List ℕ} {f : List ℕ → ℚ}
    (h : List.Forall₂ (· < ·) idx shape) : (Tensor.ofFn shape f).get idx = f idx :=
  getD_map_allTuples h

theorem Tensor.map_get_flat {t : Tensor} (h : t.wf) :
    (allTuples t.shape).map t.get = t.flat := by
  have h1 : (allTuples t.shape).map t.get
      = ((allTuples t.shape).map (tupleToIndex · t.shape)).map (t.flat.getD · 0) := by
    rw [List.map_map]
    exact List.map_congr_left fun idx _ => rfl
  rw [h1, map_tupleToIndex_allTuples, ← h, range_map_getD]

theorem Tensor.get_nonneg {t : Tensor} (h : ∀ x ∈ t.flat, 0 ≤ x) (idx : List ℕ) :
    0 ≤ t.get idx := by
  unfold Tensor.get
  rcases Nat.lt_or_ge (tupleToIndex idx t.shape) t.flat.length with hlt | hge
  · rw [List.getD_eq_getElem t.flat 0 hlt]
    exact h _ (t.flat.getElem_mem hlt)
  · rw [List.getD_eq_default t.flat 0 hge]

theorem Tensor.normalize_shape (t : Tensor) : t.normalize.shape = t.shape := rfl

theorem Tensor.normalize_wf {t : Tensor} (h : t.wf) : t.normalize.wf := by
  simpa [Tensor.normalize, Tensor.wf] using h

theorem sum_map_div (l : List ℚ) (c : ℚ) : (l.map (· / c)).sum = l.sum / c := by
  induction l with
  | nil => simp
  | cons a t ih => simp [ih, add_div]

theorem Tensor.normalize_sum {t : Tensor} (h : t.flat.sum ≠ 0) :
    t.normalize.flat.sum = 1 := by
  simp [Tensor.normalize, sum_map_div, div_self h]

theorem Tensor.normalize_get (t : Tensor) (idx : List ℕ) :
    t.normalize.get idx = t.get idx / t.flat.sum := by
  unfold Tensor.normalize Tensor.get
  rcases Nat.lt_or_ge (tupleToIndex idx t.shape) t.flat.length with hlt | hge
  · exact getD_map_lt _ _ _ hlt 0 0
  · rw [List.getD_eq_default _ 0 (by simpa using hge), List.getD_eq_default _ 0 hge]
    simp

theorem Tensor.normalize_nonneg {t : Tensor} (h : ∀ x ∈ t.flat, 0 ≤ x)
    (hs : 0 ≤ t.flat.sum) : ∀ x ∈ t.normalize.flat, 0 ≤ x := by
  intro x hx
  rcases List.mem_map.mp hx with ⟨y, hy, rfl⟩
  exact div_nonneg (h y hy) hs

theorem Tensor.shrink_shape (t : Tensor) (start extent : List ℕ) :
    (t.shrink start extent).shape = extent := rfl

theorem Tensor.shrink_get {t : Tensor} {start extent idx : List ℕ}
    (h : List.Forall₂ (· < ·) idx extent) :
    (t.shrink start extent).get idx = t.get (List.zipWith (· + ·) start idx) :=
  Tensor.get_ofFn h

theorem permute_length {α : Type} (d : α) (order : List ℕ) (l : List α) :
    (permute d order l).length = order.length := List.length_map _ _

theorem permute_getD {α : Type} (d : α) {order : List ℕ} (l : List α) {i : ℕ}
    (h : i < order.length) : (permute d order l).getD i d = l.getD (order.getD i 0) d :=
  getD_map_lt _ _ _ h d 0

theorem invPerm_length (order : List ℕ) : (invPerm order).length = order.length := by
  simp [invPerm]

theorem invPerm_getD {order : List ℕ} {i : ℕ} (h : i < order.length) :
    (invPerm order).getD i 0 = order.indexOf i := by
  unfold invPerm
  rw [getD_map_lt _ _ _ (by simpa using h) 0 0,
    List.getD_eq_getElem _ 0 (by simpa using h), List.getElem_range]

theorem getD_indexOf_of_mem {order : List ℕ} {x : ℕ} (h : x ∈ order) :
    order.getD (order.indexOf x) 0 = x := by
  rw [List.getD_eq_getElem _ 0 (List.indexOf_lt_length.mpr h)]
  exact List.getElem_indexOf _

theorem indexOf_getD_of_nodup {order : List ℕ} (hnd : order.Nodup) {i : ℕ}
    (h : i < order.length) : order.indexOf (order.getD i 0) = i := by
  rw [List.getD_eq_getElem _ 0 h]
  exact List.indexOf_getElem hnd i h

theorem IsPermOf.length_eq {order : List ℕ} {d : ℕ} (h : IsPermOf order d) :
    order.length = d := by
  simpa using List.Perm.length_eq h

theorem IsPermOf.mem_iff {order : List ℕ} {d : ℕ} (h : IsPermOf order d) {x : ℕ} :
    x ∈ order ↔ x < d := by
  rw [List.Perm.mem_iff h, List.mem_range]

theorem IsPermOf.nodup {order : List ℕ} {d : ℕ} (h : IsPermOf order d) : order.Nodup :=
  (List.Perm.nodup_iff h).mpr (List.nodup_range d)

theorem IsPermOf.getD_lt {order : List ℕ} {d : ℕ} (h : IsPermOf order d) {i : ℕ}
    (hi : i < d) : order.getD i 0 < d := by
  have hi' : i < order.length := by rw [h.length_eq]; exact hi
  rw [← h.mem_iff, List.getD_eq_getElem _ 0 hi']
  exact order.getElem_mem hi'

theorem IsPermOf.getD_invPerm_getD {order : List ℕ} {d : ℕ} (h : IsPermOf order d)
    {i : ℕ} (hi : i < d) : order.getD ((invPerm order).getD i 0) 0 = i := by
  rw [invPerm_getD (by rw [h.length_eq]; exact hi)]
  exact getD_indexOf_of_mem (h.mem_iff.mpr hi)

theorem IsPermOf.invPerm_getD_getD {order : List ℕ} {d : ℕ} (h : IsPermOf order d)
    {i : ℕ} (hi : i < d) : (invPerm order).getD (order.getD i 0) 0 = i := by
  rw [invPerm_getD (by rw [h.length_eq]; exact h.getD_lt hi)]
  exact indexOf_getD_of_nodup h.nodup (by rw [h.length_eq]; exact hi)

theorem IsPermOf.invPerm {order : List ℕ} {d : ℕ} (h : IsPermOf order d) :
    IsPermOf (invPerm order) d := by
  have hlen : (Evergreen.invPerm order).length = d := by
    rw [invPerm_length, h.length_eq]
  have hsub : Evergreen.invPerm order ⊆ List.range d := by
    intro x hx
    rcases List.mem_map.mp hx with ⟨i, hi, rfl⟩
    rw [List.mem_range, ← h.length_eq]
    exact List.indexOf_lt_length.mpr (h.mem_iff.mpr (by simpa [h.length_eq] using hi))
  have hnd : (Evergreen.invPerm order).Nodup := by
    refine List.Nodup.map_on ?_ (List.nodup_range _)
    intro x hx y hy hxy
    have hx' : x < d := by simpa [h.length_eq] using List.mem_range.mp hx
    have hy' : y < d := by simpa [h.length_eq] using List.mem_range.mp hy
    have hval : order.getD (order.indexOf x) 0 = order.getD (order.indexOf y) 0 := by
      rw [hxy]
    rwa [getD_indexOf_of_mem (h.mem_iff.mpr hx'),
      getD_indexOf_of_mem (h.mem_iff.mpr hy')] at hval
  have hsp : List.Subperm (Evergreen.invPerm order) (List.range d) := hnd.subperm hsub
  exact hsp.perm_of_length_le (by simp [hlen])

theorem indexOf_eq_of_getD {l : List ℕ} (hnd : l.Nodup) {i x : ℕ}
    (hx : x < l.length) (hv : l.getD x 0 = i) : l.indexOf i = x := by
  have hmem : i ∈ l := by
    rw [← hv, List.getD_eq_getElem _ 0 hx]
    exact l.getElem_mem hx
  have h1 : l.indexOf i < l.length := List.indexOf_lt_length.mpr hmem
  have h2 : l.getD (l.indexOf i) 0 = i := getD_indexOf_of_mem hmem
  have : l.getD (l.indexOf i) 0 = l.getD x 0 := by rw [h2, hv]
  rw [List.getD_eq_getElem _ 0 h1, List.getD_eq_getElem _ 0 hx] at this
  exact (List.Nodup.getElem_inj_iff hnd).mp this

theorem invPerm_invPerm {order : List ℕ} {d : ℕ} (h : IsPermOf order d) :
    invPerm (invPerm order) = order := by
  apply List.ext_getElem
  · rw [invPerm_length, invPerm_length]
  · intro i h1 h2
    have hi : i < d := by rw [← h.length_eq]; exact h2
    rw [← List.getD_eq_getElem _ 0 h1, ← List.getD_eq_getElem _ 0 h2]
    rw [invPerm_getD (by rw [invPerm_length, h.length_eq]; exact hi)]
    exact indexOf_eq_of_getD h.invPerm.nodup
      (by rw [h.invPerm.length_eq]; exact h.getD_lt hi) (h.invPerm_getD_getD hi)

theorem forall₂_lt_iff_getD {idx s : List ℕ} :
    List.Forall₂ (· < ·) idx s
      ↔ idx.length = s.length ∧ ∀ i < s.length, idx.getD i 0 < s.getD i 0 := by
  induction idx generalizing s with
  | nil =>
    cases s with
    | nil => simp
    | cons b t => simp [Nat.succ_ne_zero]
  | cons a t ih =>
    cases s with
    | nil => constructor <;> intro h <;> simp_all
    | cons b u =>
      constructor
      · intro h
        cases h with
        | cons hab h =>
          rcases ih.mp h with ⟨hl, hp⟩
          refine ⟨by simpa using hl, ?_⟩
          intro i hi
          cases i with
          | zero => simpa using hab
          | succ j => exact hp j (Nat.lt_of_succ_lt_succ hi)
      · rintro ⟨hl, hp⟩
        refine List.Forall₂.cons (by simpa using hp 0 (Nat.succ_pos _)) (ih.mpr ⟨by simpa using hl, ?_⟩)
        intro i hi
        exact hp (i + 1) (Nat.succ_lt_succ hi)

theorem permute_comp_invPerm {α : Type} (dv : α) {order : List ℕ} {d : ℕ}
    (h : IsPermOf order d) {l : List α} (hl : l.length = d) :
    permute dv (invPerm order) (permute dv order l) = l := by
  apply List.ext_getElem
  · rw [permute_length, invPerm_length, h.length_eq, hl]
  · intro i h1 h2
    have hi : i < d := by rw [← hl]; exact h2
    rw [← List.getD_eq_getElem _ dv h1, ← List.getD_eq_getElem _ dv h2]
    rw [permute_getD dv _ (by rw [invPerm_length, h.length_eq]; exact hi)]
    rw [permute_getD dv _ (by rw [h.length_eq]; exact (h.invPerm.getD_lt hi))]
    rw [h.getD_invPerm_getD hi]

theorem permute_invPerm_comp {α : Type} (dv : α) {order : List ℕ} {d : ℕ}
    (h : IsPermOf order d) {l : List α} (hl : l.length = d) :
    permute dv order (permute dv (invPerm order) l) = l := by
  have h2 := permute_comp_invPerm dv h.invPerm hl
  rwa [invPerm_invPerm h] at h2

theorem forall₂_permute {j s : List ℕ} {order : List ℕ} {d : ℕ} (h : IsPermOf order d)
    (hs : s.length = d) (hj : List.Forall₂ (· < ·) j s) :
    List.Forall₂ (· < ·) (permute 0 order j) (permute 0 order s) := by
  rcases forall₂_lt_iff_getD.mp hj with ⟨hl, hp⟩
  refine forall₂_lt_iff_getD.mpr ⟨by rw [permute_length, permute_length], ?_⟩
  intro i hi
  have hi' : i < order.length := by rw [permute_length] at hi; exact hi
  rw [permute_getD 0 _ hi', permute_getD 0 _ hi']
  exact hp _ (by rw [hs]; exact h.getD_lt (by rw [← h.length_eq]; exact hi'))

theorem Tensor.transpose_shape (t : Tensor) (order : List ℕ) :
    (t.transpose order).shape = permute 0 order t.shape := rfl

theorem Tensor.transpose_get {t : Tensor} {order j : List ℕ}
    (hj : List.Forall₂ (· < ·) j (permute 0 order t.shape)) :
    (t.transpose order).get j = t.get (permute 0 (invPerm order) j) :=
  Tensor.get_ofFn hj

theorem allTuples_permute_perm {order : List ℕ} {d : ℕ} (h : IsPermOf order d)
    {s : List ℕ} (hs : s.length = d) :
    ((allTuples (permute 0 order s)).map (permute 0 (invPerm order))).Perm (allTuples s) := by
  have hlen' : (permute 0 order s).length = d := by rw [permute_length, h.length_eq]
  have hnd1 : ((allTuples (permute 0 order s)).map (permute 0 (invPerm order))).Nodup := by
    refine List.Nodup.map_on ?_ (nodup_allTuples _)
    intro x hx y hy hxy
    have hxl : x.length = d := by
      rw [(List.Forall₂.length_eq (mem_allTuples.mp hx)), hlen']
    have hyl : y.length = d := by
      rw [(List.Forall₂.length_eq (mem_allTuples.mp hy)), hlen']
    have := congrArg (permute 0 order) hxy
    rwa [permute_invPerm_comp 0 h hxl, permute_invPerm_comp 0 h hyl] at this
  have hsub1 : ((allTuples (permute 0 order s)).map (permute 0 (invPerm order)))
      ⊆ allTuples s := by
    intro x hx
    rcases List.mem_map.mp hx with ⟨j, hj, rfl⟩
    have hj' := mem_allTuples.mp hj
    have := forall₂_permute h.invPerm hlen' hj'
    rwa [permute_comp_invPerm 0 h hs, mem_allTuples.symm] at this
  have hsub2 : allTuples s ⊆
      ((allTuples (permute 0 order s)).map (permute 0 (invPerm order))) := by
    intro m hm
    have hm' := mem_allTuples.mp hm
    have hml : m.length = d := by rw [List.Forall₂.length_eq hm', hs]
    refine List.mem_map.mpr ⟨permute 0 order m, ?_, permute_comp_invPerm 0 h hml⟩
    exact mem_allTuples.mpr (forall₂_permute h hs hm')
  exact List.Subperm.antisymm (hnd1.subperm hsub1) ((nodup_allTuples s).subperm hsub2)

theorem Tensor.transpose_flat_perm {t : Tensor} {order : List ℕ} {d : ℕ}
    (h : IsPermOf order d) (hs : t.shape.length = d) (hwf : t.wf) :
    (t.transpose order).flat.Perm t.flat := by
  have hflat : (t.transpose order).flat
      = ((allTuples (permute 0 order t.shape)).map (permute 0 (invPerm order))).map t.get := by
    simp only [Tensor.transpose, Tensor.ofFn, List.map_map]
    rfl
  rw [hflat, ← Tensor.map_get_flat hwf]
  exact (allTuples_permute_perm h hs).map t.get

theorem Tensor.transpose_sum {t : Tensor} {order : List ℕ} {d : ℕ}
    (h : IsPermOf order d) (hs : t.shape.length = d) (hwf : t.wf) :
    (t.transpose order).flat.sum = t.flat.sum :=
  (Tensor.transpose_flat_perm h hs hwf).sum_eq

theorem exists_pos_of_sum_pos : ∀ {l : List ℚ}, 0 < l.sum → ∃ x ∈ l, 0 < x := by
  intro l
  induction l with
  | nil => intro h; simp at h
  | cons a t ih =>
    intro h
    rcases lt_or_le 0 a with ha | ha
    · exact ⟨a, List.mem_cons_self a t, ha⟩
    · have : 0 < t.sum := by
        have := List.sum_cons (a := a) (l := t)
        nlinarith [this]
      rcases ih this with ⟨x, hx, hpx⟩
      exact ⟨x, List.mem_cons_of_mem a hx, hpx⟩

theorem sum_pos_of_mem_pos {l : List ℚ} (h0 : ∀ x ∈ l, 0 ≤ x) {x : ℚ}
    (hx : x ∈ l) (hpos : 0 < x) : 0 < l.sum :=
  lt_of_lt_of_le hpos (List.single_le_sum h0 x hx)

theorem getD_zipWith {α β γ : Type} (f : α → β → γ) (l1 : List α) (l2 : List β)
    (i : ℕ) (h1 : i < l1.length) (h2 : i < l2.length) (da : α) (db : β) (dc : γ) :
    (List.zipWith f l1 l2).getD i dc = f (l1.getD i da) (l2.getD i db) := by
  rw [List.getD_eq_getElem _ dc (by rw [List.length_zipWith]; omega),
    List.getD_eq_getElem _ da h1, List.getD_eq_getElem _ db h2, List.getElem_zipWith]

theorem forall₂_iff_getD {α β : Type} (r : α → β → Prop) (da : α) (db : β) :
    ∀ {l1 : List α} {l2 : List β}, List.Forall₂ r l1 l2 ↔
      l1.length = l2.length ∧ ∀ i < l2.length, r (l1.getD i da) (l2.getD i db) := by
  intro l1
  induction l1 with
  | nil =>
    intro l2
    cases l2 with
    | nil => simp
    | cons b t => simp [Nat.succ_ne_zero]
  | cons a t ih =>
    intro l2
    cases l2 with
    | nil => constructor <;> intro h <;> simp_all
    | cons b u =>
      constructor
      · intro h
        cases h with
        | cons hab h =>
          rcases ih.mp h with ⟨hl, hp⟩
          refine ⟨by simpa using hl, ?_⟩
          intro i hi
          cases i with
          | zero => simpa using hab
          | succ j => exact hp j (Nat.lt_of_succ_lt_succ hi)
      · rintro ⟨hl, hp⟩
        refine List.Forall₂.cons (by simpa using hp 0 (Nat.succ_pos _))
          (ih.mpr ⟨by simpa using hl, ?_⟩)
        intro i hi
        exact hp (i + 1) (Nat.succ_lt_succ hi)

theorem zipWith_max_of_forall₂_le {x y : List ℤ} (h : List.Forall₂ (· ≤ ·) x y) :
    List.zipWith max x y = y := by
  induction h with
  | nil => rfl
  | cons hab _ ih => simp [List.zipWith_cons_cons, max_eq_right hab, ih]

theorem zipWith_min_of_forall₂_le {x y : List ℤ} (h : List.Forall₂ (· ≤ ·) x y) :
    List.zipWith min x y = x := by
  induction h with
  | nil => rfl
  | cons hab _ ih => simp [List.zipWith_cons_cons, min_eq_left hab, ih]

theorem isPermOf_of_nodup_lt {order : List ℕ} {d : ℕ} (hnd : order.Nodup)
    (hmem : ∀ x ∈ order, x < d) (hlen : order.length = d) : IsPermOf order d := by
  have hsub : order ⊆ List.range d := fun x hx => List.mem_range.mpr (hmem x hx)
  exact (hnd.subperm hsub).perm_of_length_le (by simp [hlen])

theorem mem_qualifyingTuples {t : Tensor} {tau : ℚ} {c : List ℕ} :
    c ∈ qualifyingTuples t tau
      ↔ List.Forall₂ (· < ·) c t.shape ∧ tau * t.flat.sum < t.get c := by
  simp [qualifyingTuples, List.mem_filter, mem_allTuples]

theorem qualifyingTuples_ne_nil {t : Tensor} (hwf : t.wf) (hs : 0 < t.flat.sum) :
    qualifyingTuples t 0 ≠ [] := by
  rcases exists_pos_of_sum_pos hs with ⟨x, hx, hpx⟩
  rw [← Tensor.map_get_flat hwf] at hx
  rcases List.mem_map.mp hx with ⟨c, hc, rfl⟩
  intro hnil
  have : c ∈ qualifyingTuples t 0 :=
    mem_qualifyingTuples.mpr ⟨mem_allTuples.mp hc, by simpa using hpx⟩
  simp [hnil] at this

theorem bbox_fst_length (t : Tensor) (tau : ℚ) :
    (nonzero_bounding_box t tau).1.length = t.shape.length := by
  simp [nonzero_bounding_box]

theorem bbox_snd_length (t : Tensor) (tau : ℚ) :
    (nonzero_bounding_box t tau).2.length = t.shape.length := by
  simp [nonzero_bounding_box]

theorem bbox_fst_getD (t : Tensor) (tau : ℚ) {a : ℕ} (h : a < t.shape.length) :
    (nonzero_bounding_box t tau).1.getD a 0
      = (((qualifyingTuples t tau).map fun idx => idx.getD a 0).min?).getD 0 := by
  unfold nonzero_bounding_box
  simp only
  rw [getD_map_lt _ _ _ (by simpa using h) 0 0,
    List.getD_eq_getElem _ 0 (by simpa using h), List.getElem_range]

theorem bbox_snd_getD (t : Tensor) (tau : ℚ) {a : ℕ} (h : a < t.shape.length) :
    (nonzero_bounding_box t tau).2.getD a 0
      = (((qualifyingTuples t tau).map fun idx => idx.getD a 0).max?).getD 0 := by
  unfold nonzero_bounding_box
  simp only
  rw [getD_map_lt _ _ _ (by simpa using h) 0 0,
    List.getD_eq_getElem _ 0 (by simpa using h), List.getElem_range]

theorem bbox_fst_le {t : Tensor} {tau : ℚ} {a : ℕ} (ha : a < t.shape.length)
    {c : List ℕ} (hc : c ∈ qualifyingTuples t tau) :
    (nonzero_bounding_box t tau).1.getD a 0 ≤ c.getD a 0 := by
  rw [bbox_fst_getD t tau ha]
  have hcc : c.getD a 0 ∈ (qualifyingTuples t tau).map fun idx => idx.getD a 0 :=
    List.mem_map.mpr ⟨c, hc, rfl⟩
  cases hm : ((qualifyingTuples t tau).map fun idx => idx.getD a 0).min? with
  | none =>
    rw [List.min?_eq_none_iff] at hm
    rw [hm] at hcc
    exact absurd hcc (by simp)
  | some m =>
    rcases List.min?_eq_some_iff'.mp hm with ⟨_, hle⟩
    simpa using hle _ hcc

theorem le_bbox_snd {t : Tensor} {tau : ℚ} {a : ℕ} (ha : a < t.shape.length)
    {c : List ℕ} (hc : c ∈ qualifyingTuples t tau) :
    c.getD a 0 ≤ (nonzero_bounding_box t tau).2.getD a 0 := by
  rw [bbox_snd_getD t tau ha]
  have hcc : c.getD a 0 ∈ (qualifyingTuples t tau).map fun idx => idx.getD a 0 :=
    List.mem_map.mpr ⟨c, hc, rfl⟩
  cases hm : ((qualifyingTuples t tau).map fun idx => idx.getD a 0).max? with
  | none =>
    rw [List.max?_eq_none_iff] at hm
    rw [hm] at hcc
    exact absurd hcc (by simp)
  | some m =>
    rcases List.max?_eq_some_iff'.mp hm with ⟨_, hle⟩
    simpa using hle _ hcc

theorem bbox_fst_attained {t : Tensor} {tau : ℚ} (hne : qualifyingTuples t tau ≠ [])
    {a : ℕ} (ha : a < t.shape.length) :
    ∃ c ∈ qualifyingTuples t tau, c.getD a 0 = (nonzero_bounding_box t tau).1.getD a 0 := by
  rw [bbox_fst_getD t tau ha]
  cases hm : ((qualifyingTuples t tau).map fun idx => idx.getD a 0).min? with
  | none =>
    rw [List.min?_eq_none_iff, List.map_eq_nil_iff] at hm
    exact absurd hm hne
  | some m =>
    have hmem := List.min?_mem (fun a b => by omega) hm
    rcases List.mem_map.mp hmem with ⟨c, hc, hv⟩
    exact ⟨c, hc, by simpa using hv⟩

theorem bbox_snd_attained {t : Tensor} {tau : ℚ} (hne : qualifyingTuples t tau ≠ [])
    {a : ℕ} (ha : a < t.shape.length) :
    ∃ c ∈ qualifyingTuples t tau, c.getD a 0 = (nonzero_bounding_box t tau).2.getD a 0 := by
  rw [bbox_snd_getD t tau ha]
  cases hm : ((qualifyingTuples t tau).map fun idx => idx.getD a 0).max? with
  | none =>
    rw [List.max?_eq_none_iff, List.map_eq_nil_iff] at hm
    exact absurd hm hne
  | some m =>
    have hmem := List.max?_mem (fun a b => by omega) hm
    rcases List.mem_map.mp hmem with ⟨c, hc, hv⟩
    exact ⟨c, hc, by simpa using hv⟩

theorem rel_thresh_eq : PMF.relative_mass_threshold_for_bounding_box = 0 := rfl

theorem mass_thresh_eq : PMF.mass_threshold_for_normalization = 0 := rfl

theorem mem_qualifying_zero {t : Tensor} {c : List ℕ} :
    c ∈ qualifyingTuples t PMF.relative_mass_threshold_for_bounding_box
      ↔ List.Forall₂ (· < ·) c t.shape ∧ 0 < t.get c := by
  rw [rel_thresh_eq, mem_qualifyingTuples, zero_mul]

theorem boxFirst_le_of_qual {t : Tensor} {c : List ℕ} {a : ℕ} (ha : a < t.shape.length)
    (hc : c ∈ qualifyingTuples t PMF.relative_mass_threshold_for_bounding_box) :
    (boxFirst t).getD a 0 ≤ c.getD a 0 := bbox_fst_le ha hc

theorem qual_le_boxLast {t : Tensor} {c : List ℕ} {a : ℕ} (ha : a < t.shape.length)
    (hc : c ∈ qualifyingTuples t PMF.relative_mass_threshold_for_bounding_box) :
    c.getD a 0 ≤ (boxLast t).getD a 0 := le_bbox_snd ha hc

theorem qual_getD_lt_shape {t : Tensor} {c : List ℕ} {a : ℕ} (ha : a < t.shape.length)
    (hc : List.Forall₂ (· < ·) c t.shape) : c.getD a 0 < t.shape.getD a 0 :=
  (forall₂_iff_getD (· < ·) 0 0).mp hc |>.2 a ha

theorem boxLast_lt_shape {t : Tensor}
    (hne : qualifyingTuples t PMF.relative_mass_threshold_for_bounding_box ≠ [])
    {a : ℕ} (ha : a < t.shape.length) :
    (boxLast t).getD a 0 < t.shape.getD a 0 := by
  rcases bbox_snd_attained hne ha with ⟨c, hc, hv⟩
  show (nonzero_bounding_box t PMF.relative_mass_threshold_for_bounding_box).2.getD a 0
    < t.shape.getD a 0
  rw [← hv]
  exact qual_getD_lt_shape ha (mem_qualifying_zero.mp hc).1

theorem boxFirst_le_boxLast {t : Tensor}
    (hne : qualifyingTuples t PMF.relative_mass_threshold_for_bounding_box ≠ [])
    {a : ℕ} (ha : a < t.shape.length) :
    (boxFirst t).getD a 0 ≤ (boxLast t).getD a 0 := by
  rcases List.exists_mem_of_ne_nil _ hne with ⟨c, hc⟩
  exact le_trans (boxFirst_le_of_qual ha hc) (qual_le_boxLast ha hc)

theorem boxFirst_length (t : Tensor) : (boxFirst t).length = t.shape.length :=
  bbox_fst_length t _

theorem boxLast_length (t : Tensor) : (boxLast t).length = t.shape.length :=
  bbox_snd_length t _

theorem boxExtent_length (t : Tensor) : (boxExtent t).length = t.shape.length := by
  simp [boxExtent, boxFirst_length, boxLast_length]

theorem boxExtent_getD {t : Tensor} {a : ℕ} (ha : a < t.shape.length) :
    (boxExtent t).getD a 0 = (boxLast t).getD a 0 - (boxFirst t).getD a 0 + 1 := by
  unfold boxExtent
  rw [getD_zipWith _ _ _ a (by rw [boxLast_length]; exact ha)
    (by rw [boxFirst_length]; exact ha) 0 0 0]

/-- Characterization of `PMF::narrow_to_nonzero_support` when the grid
has a nonempty set of above-threshold cells: the box is in range, so
the min/max clamps of `narrow_support` are no-ops and the result is
exactly the bounding-box subgrid, renormalized, at the shifted origin. -/
theorem narrow_to_nonzero_char (q : PMF)
    (hl : q.first_support.length = q.table.shape.length)
    (hne : qualifyingTuples q.table PMF.relative_mass_threshold_for_bounding_box ≠ []) :
    q.narrow_to_nonzero_support
      = ⟨List.zipWith (· + ·) q.first_support ((boxFirst q.table).map Int.ofNat),
         (q.table.shrink (boxFirst q.table) (boxExtent q.table)).normalize⟩ := by
  have hd : q.first_support.length = q.table.shape.length := hl
  have hnf_len : (List.zipWith (· + ·) q.first_support
      ((boxFirst q.table).map Int.ofNat)).length = q.table.shape.length := by
    rw [List.length_zipWith, List.length_map, boxFirst_length, hd, Nat.min_self]
  have hnl_len : (List.zipWith (· + ·) q.first_support
      ((boxLast q.table).map Int.ofNat)).length = q.table.shape.length := by
    rw [List.length_zipWith, List.length_map, boxLast_length, hd, Nat.min_self]
  have hnf_getD : ∀ i < q.table.shape.length,
      (List.zipWith (· + ·) q.first_support ((boxFirst q.table).map Int.ofNat)).getD i 0
        = q.first_support.getD i 0 + Int.ofNat ((boxFirst q.table).getD i 0) := by
    intro i hi
    rw [getD_zipWith _ _ _ i (by omega) (by rw [List.length_map, boxFirst_length]; exact hi) 0 0 0,
      getD_map_lt _ _ _ (by rw [boxFirst_length]; exact hi) 0 0]
  have hnl_getD : ∀ i < q.table.shape.length,
      (List.zipWith (· + ·) q.first_support ((boxLast q.table).map Int.ofNat)).getD i 0
        = q.first_support.getD i 0 + Int.ofNat ((boxLast q.table).getD i 0) := by
    intro i hi
    rw [getD_zipWith _ _ _ i (by omega) (by rw [List.length_map, boxLast_length]; exact hi) 0 0 0,
      getD_map_lt _ _ _ (by rw [boxLast_length]; exact hi) 0 0]
  have hIF : q.interFirst (List.zipWith (· + ·) q.first_support
      ((boxFirst q.table).map Int.ofNat))
      = List.zipWith (· + ·) q.first_support ((boxFirst q.table).map Int.ofNat) := by
    apply zipWith_max_of_forall₂_le
    refine (forall₂_iff_getD (· ≤ ·) 0 0).mpr ⟨by omega, ?_⟩
    intro i hi
    have hi' : i < q.table.shape.length := by omega
    rw [hnf_getD i hi']
    simp only [Int.ofNat_eq_coe]
    omega
  have hNL : q.newLast (List.zipWith (· + ·) q.first_support
      ((boxLast q.table).map Int.ofNat))
      = List.zipWith (· + ·) q.first_support ((boxLast q.table).map Int.ofNat) := by
    apply zipWith_min_of_forall₂_le
    have hcur_len : (List.zipWith (fun f n => f + n - 1) q.first_support
        (q.table.shape.map Int.ofNat)).length = q.table.shape.length := by
      rw [List.length_zipWith, List.length_map, hd, Nat.min_self]
    refine (forall₂_iff_getD (· ≤ ·) 0 0).mpr ⟨by omega, ?_⟩
    intro i hi
    have hi' : i < q.table.shape.length := by omega
    rw [hnl_getD i hi',
      getD_zipWith _ _ _ i (by omega) (by rw [List.length_map]; exact hi') 0 0 0,
      getD_map_lt _ _ _ hi' 0 0]
    have := boxLast_lt_shape hne hi'
    simp only [Int.ofNat_eq_coe]
    omega
  have hstart : List.zipWith (fun a b => (a - b).toNat)
      (List.zipWith (· + ·) q.first_support ((boxFirst q.table).map Int.ofNat))
      q.first_support = boxFirst q.table := by
    apply List.ext_getElem
    · rw [List.length_zipWith, hnf_len, hd, Nat.min_self, boxFirst_length]
    · intro i h1 h2
      have hi : i < q.table.shape.length := by rw [← boxFirst_length q.table]; exact h2
      rw [← List.getD_eq_getElem _ 0 h1, ← List.getD_eq_getElem _ 0 h2]
      rw [getD_zipWith _ _ _ i (by omega) (by omega) 0 0 0, hnf_getD i hi]
      simp only [Int.ofNat_eq_coe]
      omega
  have hext : List.zipWith (fun a b => (a - b + 1).toNat)
      (List.zipWith (· + ·) q.first_support ((boxLast q.table).map Int.ofNat))
      (List.zipWith (· + ·) q.first_support ((boxFirst q.table).map Int.ofNat))
      = boxExtent q.table := by
    apply List.ext_getElem
    · rw [List.length_zipWith, hnl_len, hnf_len, Nat.min_self, boxExtent_length]
    · intro i h1 h2
      have hi : i < q.table.shape.length := by rw [← boxExtent_length q.table]; exact h2
      rw [← List.getD_eq_getElem _ 0 h1, ← List.getD_eq_getElem _ 0 h2]
      rw [getD_zipWith _ _ _ i (by omega) (by omega) 0 0 0, hnf_getD i hi, hnl_getD i hi,
        boxExtent_getD hi]
      have hfl := boxFirst_le_boxLast hne hi
      simp only [Int.ofNat_eq_coe]
      omega
  unfold PMF.narrow_to_nonzero_support PMF.narrow_support PMF.retained
  rw [show (nonzero_bounding_box q.table PMF.relative_mass_threshold_for_bounding_box).1
      = boxFirst q.table from rfl,
    show (nonzero_bounding_box q.table PMF.relative_mass_threshold_for_bounding_box).2
      = boxLast q.table from rfl]
  rw [hIF, hNL, hstart, hext]

theorem qual_shift_valid {t : Tensor} {c : List ℕ}
    (hc : c ∈ qualifyingTuples t PMF.relative_mass_threshold_for_bounding_box) :
    List.Forall₂ (· < ·) (List.zipWith (fun x y => x - y) c (boxFirst t)) (boxExtent t) := by
  have hcv := (mem_qualifying_zero.mp hc).1
  have hclen : c.length = t.shape.length := List.Forall₂.length_eq hcv
  refine (forall₂_iff_getD (· < ·) 0 0).mpr ⟨?_, ?_⟩
  · rw [List.length_zipWith, hclen, boxFirst_length, Nat.min_self, boxExtent_length]
  · intro i hi
    have hi' : i < t.shape.length := by rw [boxExtent_length] at hi; exact hi
    rw [getD_zipWith _ _ _ i (by omega) (by rw [boxFirst_length]; exact hi') 0 0 0,
      boxExtent_getD hi']
    have h1 := boxFirst_le_of_qual hi' hc
    have h2 := qual_le_boxLast hi' hc
    omega

theorem qual_shift_back {t : Tensor} {c : List ℕ}
    (hc : c ∈ qualifyingTuples t PMF.relative_mass_threshold_for_bounding_box) :
    List.zipWith (· + ·) (boxFirst t) (List.zipWith (fun x y => x - y) c (boxFirst t)) = c := by
  have hcv := (mem_qualifying_zero.mp hc).1
  have hclen : c.length = t.shape.length := List.Forall₂.length_eq hcv
  apply List.ext_getElem
  · rw [List.length_zipWith, List.length_zipWith, boxFirst_length, hclen, Nat.min_self,
      Nat.min_self]
  · intro i h1 h2
    have hi : i < t.shape.length := by rw [← hclen]; exact h2
    rw [← List.getD_eq_getElem _ 0 h1, ← List.getD_eq_getElem _ 0 h2]
    rw [getD_zipWith _ _ _ i (by rw [boxFirst_length]; exact hi)
        (by rw [List.length_zipWith, hclen, boxFirst_length]; omega) 0 0 0,
      getD_zipWith _ _ _ i (by omega) (by rw [boxFirst_length]; exact hi) 0 0 0]
    have := boxFirst_le_of_qual hi hc
    omega

theorem shrink_box_get {t : Tensor} {c : List ℕ}
    (hc : c ∈ qualifyingTuples t PMF.relative_mass_threshold_for_bounding_box) :
    (t.shrink (boxFirst t) (boxExtent t)).get (List.zipWith (fun x y => x - y) c (boxFirst t))
      = t.get c := by
  rw [Tensor.shrink_get (qual_shift_valid hc), qual_shift_back hc]

theorem shrink_flat_nonneg {t : Tensor} (h0 : ∀ x ∈ t.flat, 0 ≤ x) (start ext : List ℕ) :
    ∀ x ∈ (t.shrink start ext).flat, 0 ≤ x := by
  intro x hx
  rcases List.mem_map.mp hx with ⟨idx, _, rfl⟩
  exact Tensor.get_nonneg h0 _

theorem shrink_box_sum_pos {t : Tensor} (hwf : t.wf) (h0 : ∀ x ∈ t.flat, 0 ≤ x)
    (hs : 0 < t.flat.sum) :
    0 < (t.shrink (boxFirst t) (boxExtent t)).flat.sum := by
  have hne : qualifyingTuples t PMF.relative_mass_threshold_for_bounding_box ≠ [] := by
    rw [rel_thresh_eq]; exact qualifyingTuples_ne_nil hwf hs
  rcases List.exists_mem_of_ne_nil _ hne with ⟨c, hc⟩
  have hval : 0 < t.get c := (mem_qualifying_zero.mp hc).2
  have hmem : t.get c ∈ (t.shrink (boxFirst t) (boxExtent t)).flat := by
    have hrw : t.get c = t.get (List.zipWith (· + ·) (boxFirst t)
        (List.zipWith (fun x y => x - y) c (boxFirst t))) := by rw [qual_shift_back hc]
    rw [hrw]
    show _ ∈ (allTuples (boxExtent t)).map
      (fun idx => t.get (List.zipWith (· + ·) (boxFirst t) idx))
    exact List.mem_map.mpr ⟨_, mem_allTuples.mpr (qual_shift_valid hc), rfl⟩
  exact sum_pos_of_mem_pos (shrink_flat_nonneg h0 _ _) hmem hval

theorem shrink_box_normalize_minimal {t : Tensor} (hwf : t.wf)
    (h0 : ∀ x ∈ t.flat, 0 ≤ x) (hs : 0 < t.flat.sum) :
    ((t.shrink (boxFirst t) (boxExtent t)).normalize).minimalSupport
      PMF.relative_mass_threshold_for_bounding_box := by
  have hne : qualifyingTuples t PMF.relative_mass_threshold_for_bounding_box ≠ [] := by
    rw [rel_thresh_eq]; exact qualifyingTuples_ne_nil hwf hs
  have hS := shrink_box_sum_pos hwf h0 hs
  intro a ha
  rw [Tensor.normalize_shape, Tensor.shrink_shape, boxExtent_length] at ha
  constructor
  · rcases bbox_fst_attained hne ha with ⟨c, hc, hv⟩
    refine ⟨List.zipWith (fun x y => x - y) c (boxFirst t), ?_, ?_, ?_⟩
    · rw [Tensor.normalize_shape, Tensor.shrink_shape]
      exact qual_shift_valid hc
    · have hcl : c.length = t.shape.length :=
        List.Forall₂.length_eq (mem_qualifying_zero.mp hc).1
      have hv' : c.getD a 0 = (boxFirst t).getD a 0 := hv
      rw [getD_zipWith _ _ _ a (by omega) (by rw [boxFirst_length]; exact ha) 0 0 0, hv']
      omega
    · rw [rel_thresh_eq, zero_mul, Tensor.normalize_get, shrink_box_get hc]
      exact div_pos (mem_qualifying_zero.mp hc).2 hS
  · rcases bbox_snd_attained hne ha with ⟨c, hc, hv⟩
    refine ⟨List.zipWith (fun x y => x - y) c (boxFirst t), ?_, ?_, ?_⟩
    · rw [Tensor.normalize_shape, Tensor.shrink_shape]
      exact qual_shift_valid hc
    · have hcl : c.length = t.shape.length :=
        List.Forall₂.length_eq (mem_qualifying_zero.mp hc).1
      have hv' : c.getD a 0 = (boxLast t).getD a 0 := hv
      rw [Tensor.normalize_shape, Tensor.shrink_shape,
        getD_zipWith _ _ _ a (by omega) (by rw [boxFirst_length]; exact ha) 0 0 0, hv',
        boxExtent_getD ha]
      have := boxFirst_le_boxLast hne ha
      omega
    · rw [rel_thresh_eq, zero_mul, Tensor.normalize_get, shrink_box_get hc]
      exact div_pos (mem_qualifying_zero.mp hc).2 hS

theorem normalize_facts {tab : Tensor} (hwf : tab.wf) (h0 : ∀ x ∈ tab.flat, 0 ≤ x)
    (hs : 0 < tab.flat.sum) :
    tab.normalize.wf ∧ (∀ x ∈ tab.normalize.flat, 0 ≤ x) ∧ tab.normalize.flat.sum = 1 :=
  ⟨Tensor.normalize_wf hwf, Tensor.normalize_nonneg h0 hs.le, Tensor.normalize_sum hs.ne'⟩

theorem construct_char (sup : List ℤ) (tab : Tensor)
    (hl : sup.length = tab.shape.length) (hwf : tab.wf)
    (h0 : ∀ x ∈ tab.flat, 0 ≤ x)
    (hs : PMF.mass_threshold_for_normalization < tab.flat.sum) :
    PMF.construct sup tab
      = ⟨List.zipWith (· + ·) sup ((boxFirst tab.normalize).map Int.ofNat),
         ((tab.normalize).shrink (boxFirst tab.normalize) (boxExtent tab.normalize)).normalize⟩ := by
  rw [mass_thresh_eq] at hs
  rcases normalize_facts hwf h0 hs with ⟨hwf', h0', hs1⟩
  have hne : qualifyingTuples tab.normalize PMF.relative_mass_threshold_for_bounding_box
      ≠ [] := by
    rw [rel_thresh_eq]
    exact qualifyingTuples_ne_nil hwf' (by rw [hs1]; norm_num)
  exact narrow_to_nonzero_char ⟨sup, tab.normalize⟩ (by simpa [Tensor.normalize_shape] using hl) hne

theorem construct_sum_one (sup : List ℤ) (tab : Tensor)
    (hl : sup.length = tab.shape.length) (hwf : tab.wf)
    (h0 : ∀ x ∈ tab.flat, 0 ≤ x)
    (hs : PMF.mass_threshold_for_normalization < tab.flat.sum) :
    (PMF.construct sup tab).table.flat.sum = 1 := by
  rw [construct_char sup tab hl hwf h0 hs]
  rw [mass_thresh_eq] at hs
  rcases normalize_facts hwf h0 hs with ⟨hwf', h0', hs1⟩
  exact Tensor.normalize_sum
    (shrink_box_sum_pos hwf' h0' (by rw [hs1]; norm_num)).ne'

theorem construct_minimal (sup : List ℤ) (tab : Tensor)
    (hl : sup.length = tab.shape.length) (hwf : tab.wf)
    (h0 : ∀ x ∈ tab.flat, 0 ≤ x)
    (hs : PMF.mass_threshold_for_normalization < tab.flat.sum) :
    (PMF.construct sup tab).table.minimalSupport
      PMF.relative_mass_threshold_for_bounding_box := by
  rw [construct_char sup tab hl hwf h0 hs]
  rw [mass_thresh_eq] at hs
  rcases normalize_facts hwf h0 hs with ⟨hwf', h0', hs1⟩
  exact shrink_box_normalize_minimal hwf' h0' (by rw [hs1]; norm_num)

theorem construct_first_support (sup : List ℤ) (tab : Tensor)
    (hl : sup.length = tab.shape.length) (hwf : tab.wf)
    (h0 : ∀ x ∈ tab.flat, 0 ≤ x)
    (hs : PMF.mass_threshold_for_normalization < tab.flat.sum) :
    (PMF.construct sup tab).first_support
      = List.zipWith (· + ·) sup ((boxFirst tab.normalize).map Int.ofNat) := by
  rw [construct_char sup tab hl hwf h0 hs]

theorem construct_valid (sup : List ℤ) (tab : Tensor)
    (hl : sup.length = tab.shape.length) (hwf : tab.wf)
    (h0 : ∀ x ∈ tab.flat, 0 ≤ x)
    (hs : PMF.mass_threshold_for_normalization < tab.flat.sum) :
    (PMF.construct sup tab).Valid := by
  rw [construct_char sup tab hl hwf h0 hs]
  rw [mass_thresh_eq] at hs
  rcases normalize_facts hwf h0 hs with ⟨hwf', h0', hs1⟩
  have hpos : 0 < ((tab.normalize).shrink (boxFirst tab.normalize)
      (boxExtent tab.normalize)).flat.sum :=
    shrink_box_sum_pos hwf' h0' (by rw [hs1]; norm_num)
  refine ⟨?_, ?_, ?_, ?_⟩
  · show (List.zipWith (· + ·) sup ((boxFirst tab.normalize).map Int.ofNat)).length
      = ((tab.normalize).shrink _ _).normalize.shape.length
    rw [Tensor.normalize_shape, Tensor.shrink_shape, List.length_zipWith, List.length_map,
      boxFirst_length, Tensor.normalize_shape, boxExtent_length, Tensor.normalize_shape, hl,
      Nat.min_self]
  · exact Tensor.normalize_wf (Tensor.ofFn_wf _ _)
  · exact Tensor.normalize_nonneg (shrink_flat_nonneg h0' _ _) hpos.le
  · exact Tensor.normalize_sum hpos.ne'

theorem convCell_nonneg {a b : Tensor} (ha : ∀ x ∈ a.flat, 0 ≤ x)
    (hb : ∀ x ∈ b.flat, 0 ≤ x) (k : List ℕ) : 0 ≤ convCell a b k := by
  apply List.sum_nonneg
  intro x hx
  rcases List.mem_map.mp hx with ⟨i, _, rfl⟩
  split
  · exact mul_nonneg (Tensor.get_nonneg ha _) (Tensor.get_nonneg hb _)
  · exact le_refl 0

theorem conv_flat_nonneg {a b : Tensor} (ha : ∀ x ∈ a.flat, 0 ≤ x)
    (hb : ∀ x ∈ b.flat, 0 ≤ x) (p : ℚ) :
    ∀ x ∈ (numeric_p_convolve a b p).flat, 0 ≤ x := by
  intro x hx
  rcases List.mem_map.mp hx with ⟨k, _, rfl⟩
  exact convCell_nonneg ha hb k

theorem conv_shape (a b : Tensor) (p : ℚ) :
    (numeric_p_convolve a b p).shape = convShape a.shape b.shape := rfl

theorem reverseAll_shape (t : Tensor) : t.reverseAll.shape = t.shape := rfl

theorem reverseAll_flat_nonneg {t : Tensor} (h0 : ∀ x ∈ t.flat, 0 ≤ x) :
    ∀ x ∈ t.reverseAll.flat, 0 ≤ x := by
  intro x hx
  rcases List.mem_map.mp hx with ⟨idx, _, rfl⟩
  exact Tensor.get_nonneg h0 _

theorem marginalTensor_shape (t : Tensor) (keep : List ℕ) (p : ℚ) :
    (PMF.marginalTensor t keep p).shape = permute 0 keep t.shape := rfl

theorem marginalTensor_nonneg {t : Tensor} (h0 : ∀ x ∈ t.flat, 0 ≤ x)
    (keep : List ℕ) (p : ℚ) :
    ∀ x ∈ (PMF.marginalTensor t keep p).flat, 0 ≤ x := by
  intro x hx
  rcases List.mem_map.mp hx with ⟨kt, _, rfl⟩
  apply List.sum_nonneg
  intro y hy
  rcases List.mem_map.mp hy with ⟨dt, _, rfl⟩
  exact Tensor.get_nonneg h0 _

theorem valid_rank0_eq_default {q : PMF} (hv : q.Valid) (hd : q.dimension = 0) :
    q = PMF.default := by
  obtain ⟨fs, tab⟩ := q
  obtain ⟨sh, fl⟩ := tab
  rcases hv with ⟨h1, h2, h3, h4⟩
  have hfs : fs = [] := List.eq_nil_of_length_eq_zero hd
  subst hfs
  have hsh : sh = [] := by
    have : sh.length = 0 := by simpa using h1.symm
    exact List.eq_nil_of_length_eq_zero this
  subst hsh
  have hone : fl.length = 1 := by simpa [Tensor.wf] using h2
  rcases List.length_eq_one.mp hone with ⟨x, hx⟩
  subst hx
  have : x = 1 := by simpa using h4
  subst this
  rfl

theorem default_valid : PMF.Valid PMF.default := by
  refine ⟨rfl, rfl, ?_, by show ([1] : List ℚ).sum = 1; simp⟩
  intro x hx
  have hx1 : x ∈ ([1] : List ℚ) := hx
  simp at hx1
  rw [hx1]
  norm_num

theorem p_add_sum_one {lhs rhs : PMF} (hv1 : lhs.Valid) (hv2 : rhs.Valid) (p : ℚ)
    (hs : PMF.mass_threshold_for_normalization
      < (numeric_p_convolve lhs.table rhs.table p).flat.sum) :
    (p_add lhs rhs p).table.flat.sum = 1 := by
  refine construct_sum_one _ _ ?_ (Tensor.ofFn_wf _ _)
    (conv_flat_nonneg hv1.2.2.1 hv2.2.2.1 p) hs
  have h1 := hv1.1
  have h2 := hv2.1
  simp only [List.length_zipWith, conv_shape, convShape]
  rw [h1, h2]

theorem p_sub_sum_one {lhs rhs : PMF} (hv1 : lhs.Valid) (hv2 : rhs.Valid) (p : ℚ)
    (hs : PMF.mass_threshold_for_normalization
      < (numeric_p_convolve lhs.table rhs.table.reverseAll p).flat.sum) :
    (p_sub lhs rhs p).table.flat.sum = 1 := by
  refine construct_sum_one _ _ ?_ (Tensor.ofFn_wf _ _)
    (conv_flat_nonneg hv1.2.2.1 (reverseAll_flat_nonneg hv2.2.2.1) p) hs
  have h1 := hv1.1
  have h2 := hv2.1
  simp only [List.length_zipWith, conv_shape, convShape, reverseAll_shape,
    PMF.last_support, List.length_map]
  rw [h1, h2]
  omega

theorem marginal_sum_one {q : PMF} (hv : q.Valid) {keep : List ℕ}
    (hnd : keep.Nodup) (hmem : ∀ x ∈ keep, x < q.dimension) (p : ℚ)
    (hraw : keep.length ≠ q.dimension → keep.length ≠ 0 →
      PMF.mass_threshold_for_normalization
        < (PMF.marginalTensor q.table keep p).flat.sum) :
    (q.marginal keep p).table.flat.sum = 1 := by
  unfold PMF.marginal
  by_cases h1 : keep.length = q.dimension
  · rw [if_pos h1]
    have hperm : IsPermOf keep q.table.shape.length :=
      isPermOf_of_nodup_lt hnd (fun x hx => by rw [← hv.1]; exact hmem x hx)
        (by rw [← hv.1]; exact h1)
    show (q.table.transpose keep).flat.sum = 1
    rw [Tensor.transpose_sum hperm rfl hv.2.1, hv.2.2.2]
  · rw [if_neg h1]
    by_cases h2 : keep.length = 0
    · rw [if_pos h2]
      exact default_valid.2.2.2
    · rw [if_neg h2]
      refine construct_sum_one _ _ ?_ (Tensor.ofFn_wf _ _)
        (marginalTensor_nonneg hv.2.2.1 keep p) (hraw h1 h2)
      rw [permute_length, marginalTensor_shape, permute_length]

theorem narrow_sum_one {q : PMF} {nf nl : List ℤ}
    (hs : PMF.mass_threshold_for_normalization < (q.retained nf nl).flat.sum) :
    (q.narrow_support nf nl).table.flat.sum = 1 := by
  rw [mass_thresh_eq] at hs
  exact Tensor.normalize_sum hs.ne'

/-- **C1**: every caller-visible PMF produced by public construction or
derived via `add`, `subtract`, `marginal` or `narrow` — whenever the
raw mass fed to the final normalization is strictly above the zero
mass-threshold — has grid cells summing to exactly 1 (the exact-
arithmetic form of "equal to 1 within floating-point tolerance"),
because each of these operations routes through `normalize` before
returning. -/
theorem C1_normalization_invariant :
    (∀ (sup : List ℤ) (tab : Tensor), sup.length = tab.shape.length → tab.wf →
      (∀ x ∈ tab.flat, 0 ≤ x) → PMF.mass_threshold_for_normalization < tab.flat.sum →
      (PMF.construct sup tab).table.flat.sum = 1)
    ∧ (∀ (lhs rhs : PMF) (p : ℚ), lhs.Valid → rhs.Valid →
      PMF.mass_threshold_for_normalization
          < (numeric_p_convolve lhs.table rhs.table p).flat.sum →
      (p_add lhs rhs p).table.flat.sum = 1)
    ∧ (∀ (lhs rhs : PMF) (p : ℚ), lhs.Valid → rhs.Valid →
      PMF.mass_threshold_for_normalization
          < (numeric_p_convolve lhs.table rhs.table.reverseAll p).flat.sum →
      (p_sub lhs rhs p).table.flat.sum = 1)
    ∧ (∀ (q : PMF) (keep : List ℕ) (p : ℚ), q.Valid → keep.Nodup →
      (∀ x ∈ keep, x < q.dimension) →
      (keep.length ≠ q.dimension → keep.length ≠ 0 →
        PMF.mass_threshold_for_normalization
          < (PMF.marginalTensor q.table keep p).flat.sum) →
      (q.marginal keep p).table.flat.sum = 1)
    ∧ (∀ (q : PMF) (nf nl : List ℤ),
      PMF.mass_threshold_for_normalization < (q.retained nf nl).flat.sum →
      (q.narrow_support nf nl).table.flat.sum = 1) :=
  ⟨fun sup tab hl hwf h0 hs => construct_sum_one sup tab hl hwf h0 hs,
   fun _ _ p hv1 hv2 hs => p_add_sum_one hv1 hv2 p hs,
   fun _ _ p hv1 hv2 hs => p_sub_sum_one hv1 hv2 p hs,
   fun _ keep p hv hnd hmem hraw => marginal_sum_one hv hnd hmem p hraw,
   fun _ _ _ hs => narrow_sum_one hs⟩

/-- Witness for C1: concrete instances of the construction and
narrowing clauses with all hypotheses discharged. -/
theorem C1_normalization_invariant_witness :
    (PMF.construct [0] (Tensor.mk [2] [1/2, 1/2])).table.flat.sum = 1
    ∧ ((PMF.mk [0] (Tensor.mk [2] [1/2, 1/2])).narrow_support [0] [0]).table.flat.sum = 1 := by
  constructor
  · refine C1_normalization_invariant.1 [0] (Tensor.mk [2] [1/2, 1/2]) rfl rfl
      ?_ ?_
    · intro x hx
      have hx' : x ∈ ([1/2, 1/2] : List ℚ) := hx
      have h12 : (0:ℚ) ≤ 1/2 := by norm_num
      rcases List.mem_cons.mp hx' with h | h'
      · rw [h]; exact h12
      · rcases List.mem_cons.mp h' with h | h
        · rw [h]; exact h12
        · exact absurd h (List.not_mem_nil x)
    · show (0:ℚ) < ([1/2, 1/2] : List ℚ).sum
      norm_num
  · refine C1_normalization_invariant.2.2.2.2 (PMF.mk [0] (Tensor.mk [2] [1/2, 1/2]))
      [0] [0] ?_
    have hr : (PMF.mk [0] (Tensor.mk [2] [1/2, 1/2])).retained [0] [0]
        = Tensor.mk [1] [1/2] := rfl
    rw [hr]
    show (0:ℚ) < ([1/2] : List ℚ).sum
    norm_num

theorem default_minimal :
    PMF.default.table.minimalSupport PMF.relative_mass_threshold_for_bounding_box :=
  fun a ha => absurd ha (Nat.not_lt_zero a)

theorem transpose_minimal {t : Tensor} {order : List ℕ} {d : ℕ} (h : IsPermOf order d)
    (hs : t.shape.length = d)
    (hm : t.minimalSupport PMF.relative_mass_threshold_for_bounding_box) :
    (t.transpose order).minimalSupport PMF.relative_mass_threshold_for_bounding_box := by
  intro a ha
  rw [Tensor.transpose_shape, permute_length] at ha
  have had : a < d := by rw [← h.length_eq]; exact ha
  have ha' : order.getD a 0 < t.shape.length := by rw [hs]; exact h.getD_lt had
  rcases hm (order.getD a 0) ha' with ⟨⟨c1, hc1v, hc1z, hc1p⟩, ⟨c2, hc2v, hc2z, hc2p⟩⟩
  rw [rel_thresh_eq, zero_mul] at hc1p hc2p
  have hc1l : c1.length = d := by rw [List.Forall₂.length_eq hc1v, hs]
  have hc2l : c2.length = d := by rw [List.Forall₂.length_eq hc2v, hs]
  constructor
  · refine ⟨permute 0 order c1, ?_, ?_, ?_⟩
    · rw [Tensor.transpose_shape]
      exact forall₂_permute h hs hc1v
    · rw [permute_getD 0 _ ha]
      exact hc1z
    · rw [rel_thresh_eq, zero_mul,
        Tensor.transpose_get (forall₂_permute h hs hc1v), permute_comp_invPerm 0 h hc1l]
      exact hc1p
  · refine ⟨permute 0 order c2, ?_, ?_, ?_⟩
    · rw [Tensor.transpose_shape]
      exact forall₂_permute h hs hc2v
    · rw [permute_getD 0 _ ha, Tensor.transpose_shape, permute_getD 0 _ ha]
      exact hc2z
    · rw [rel_thresh_eq, zero_mul,
        Tensor.transpose_get (forall₂_permute h hs hc2v), permute_comp_invPerm 0 h hc2l]
      exact hc2p

theorem marginal_minimal {q : PMF} (hv : q.Valid) {keep : List ℕ}
    (hnd : keep.Nodup) (hmem : ∀ x ∈ keep, x < q.dimension) (p : ℚ)
    (hm : keep.length = q.dimension →
      q.table.minimalSupport PMF.relative_mass_threshold_for_bounding_box)
    (hraw : keep.length ≠ q.dimension → keep.length ≠ 0 →
      PMF.mass_threshold_for_normalization
        < (PMF.marginalTensor q.table keep p).flat.sum) :
    (q.marginal keep p).table.minimalSupport
      PMF.relative_mass_threshold_for_bounding_box := by
  unfold PMF.marginal
  by_cases h1 : keep.length = q.dimension
  · rw [if_pos h1]
    have hperm : IsPermOf keep q.table.shape.length :=
      isPermOf_of_nodup_lt hnd (fun x hx => by rw [← hv.1]; exact hmem x hx)
        (by rw [← hv.1]; exact h1)
    exact transpose_minimal hperm rfl (hm h1)
  · rw [if_neg h1]
    by_cases h2 : keep.length = 0
    · rw [if_pos h2]
      exact default_minimal
    · rw [if_neg h2]
      refine construct_minimal _ _ ?_ (Tensor.ofFn_wf _ _)
        (marginalTensor_nonneg hv.2.2.1 keep p) (hraw h1 h2)
      rw [permute_length, marginalTensor_shape, permute_length]

/-- Counterexample input for C2, in two parts.  First, a valid
caller-visible PMF which, after a public `narrow_support` to `[1, 2]`,
retains `[0, 1/2]` and renormalizes to `[0, 1]` — its first boundary
slice is entirely at the threshold, so the minimal-support invariant
does not survive `narrow`.  Second, feeding that narrow-damaged (still
valid) PMF to `marginal` with all axes kept takes the pure-transpose
fast path (PMF.hpp:174-177), so the all-zero boundary slice also
survives `marginal`: minimality is preserved there, not restored. -/
theorem C2_counterexample :
    (PMF.Valid (PMF.mk [0] (Tensor.mk [3] [1/2, 0, 1/2]))
    ∧ ¬ (((PMF.mk [0] (Tensor.mk [3] [1/2, 0, 1/2])).narrow_support
          [1] [2]).table.minimalSupport
        PMF.relative_mass_threshold_for_bounding_box))
    ∧ (PMF.Valid (PMF.mk [1] (Tensor.mk [2] [0, 1]))
    ∧ ¬ (((PMF.mk [1] (Tensor.mk [2] [0, 1])).marginal [0] 1).table.minimalSupport
        PMF.relative_mass_threshold_for_bounding_box)) := by
  refine ⟨⟨?_, ?_⟩, ?_, ?_⟩
  · refine ⟨rfl, rfl, ?_, ?_⟩
    · intro x hx
      have hx' : x ∈ ([1/2, 0, 1/2] : List ℚ) := hx
      have h12 : (0:ℚ) ≤ 1/2 := by norm_num
      rcases List.mem_cons.mp hx' with h | h'
      · rw [h]; exact h12
      · rcases List.mem_cons.mp h' with h | h''
        · rw [h]
        · rcases List.mem_cons.mp h'' with h | h
          · rw [h]; exact h12
          · exact absurd h (List.not_mem_nil x)
    · show ([1/2, 0, 1/2] : List ℚ).sum = 1
      norm_num
  · intro h
    have hsh : ((PMF.mk [0] (Tensor.mk [3] [1/2, 0, 1/2])).narrow_support
        [1] [2]).table.shape = [2] := rfl
    have h0 := (h 0 (by rw [hsh]; norm_num)).1
    rcases h0 with ⟨idx, hvalid, hzero, hpos⟩
    rw [hsh] at hvalid
    rcases List.forall₂_cons_right_iff.mp hvalid with ⟨i, rest, hlt, hrest, rfl⟩
    have hrest0 : rest = [] := by cases hrest; rfl
    subst hrest0
    have hi0 : i = 0 := by simpa using hzero
    subst hi0
    rw [rel_thresh_eq, zero_mul] at hpos
    have hget : ((PMF.mk [0] (Tensor.mk [3] [1/2, 0, 1/2])).narrow_support
        [1] [2]).table.get [0] = 0 / ([0, 1/2] : List ℚ).sum := rfl
    rw [hget, zero_div] at hpos
    exact lt_irrefl 0 hpos
  · refine ⟨rfl, rfl, ?_, ?_⟩
    · intro x hx
      have hx' : x ∈ ([0, 1] : List ℚ) := hx
      rcases List.mem_cons.mp hx' with h | h'
      · rw [h]
      · rcases List.mem_cons.mp h' with h | h
        · rw [h]; norm_num
        · exact absurd h (List.not_mem_nil x)
    · show ([0, 1] : List ℚ).sum = 1
      norm_num
  · intro h
    have hsh : ((PMF.mk [1] (Tensor.mk [2] [0, 1])).marginal [0] 1).table.shape
        = [2] := rfl
    have h0 := (h 0 (by rw [hsh]; norm_num)).1
    rcases h0 with ⟨idx, hvalid, hzero, hpos⟩
    rw [hsh] at hvalid
    rcases List.forall₂_cons_right_iff.mp hvalid with ⟨i, rest, hlt, hrest, rfl⟩
    have hrest0 : rest = [] := by cases hrest; rfl
    subst hrest0
    have hi0 : i = 0 := by simpa using hzero
    subst hi0
    rw [rel_thresh_eq, zero_mul] at hpos
    have hget : ((PMF.mk [1] (Tensor.mk [2] [0, 1])).marginal [0] 1).table.get [0]
        = 0 := rfl
    rw [hget] at hpos
    exact lt_irrefl 0 hpos

/-- **C2** (amended): every PMF produced by public construction or by
`add` or `subtract` has minimal support — no first or last
axis-aligned slice consists entirely of cells at or below the relative
mass threshold — and so does every `marginal` output except on the
keep-all fast path, which is a pure axis permutation (PMF.hpp:174-177)
and therefore only preserves whatever minimality the input grid
already had.  (As stated the claim also listed `narrow` and an
unconditional `marginal`, but `narrow_support` clamps to the requested
box and renormalizes without re-running the bounding-box trim, so its
output can carry an all-zero boundary slice, and the keep-all marginal
of such a PMF carries the slice through; see the counterexample.) -/
theorem C2_minimal_support_invariant :
    (∀ (sup : List ℤ) (tab : Tensor), sup.length = tab.shape.length → tab.wf →
      (∀ x ∈ tab.flat, 0 ≤ x) → PMF.mass_threshold_for_normalization < tab.flat.sum →
      (PMF.construct sup tab).table.minimalSupport
        PMF.relative_mass_threshold_for_bounding_box)
    ∧ (∀ (lhs rhs : PMF) (p : ℚ), lhs.Valid → rhs.Valid →
      PMF.mass_threshold_for_normalization
          < (numeric_p_convolve lhs.table rhs.table p).flat.sum →
      (p_add lhs rhs p).table.minimalSupport
        PMF.relative_mass_threshold_for_bounding_box)
    ∧ (∀ (lhs rhs : PMF) (p : ℚ), lhs.Valid → rhs.Valid →
      PMF.mass_threshold_for_normalization
          < (numeric_p_convolve lhs.table rhs.table.reverseAll p).flat.sum →
      (p_sub lhs rhs p).table.minimalSupport
        PMF.relative_mass_threshold_for_bounding_box)
    ∧ (∀ (q : PMF) (keep : List ℕ) (p : ℚ), q.Valid → keep.Nodup →
      (∀ x ∈ keep, x < q.dimension) →
      (keep.length = q.dimension →
        q.table.minimalSupport PMF.relative_mass_threshold_for_bounding_box) →
      (keep.length ≠ q.dimension → keep.length ≠ 0 →
        PMF.mass_threshold_for_normalization
          < (PMF.marginalTensor q.table keep p).flat.sum) →
      (q.marginal keep p).table.minimalSupport
        PMF.relative_mass_threshold_for_bounding_box) := by
  refine ⟨fun sup tab hl hwf h0 hs => construct_minimal sup tab hl hwf h0 hs, ?_, ?_, ?_⟩
  · intro lhs rhs p hv1 hv2 hs
    refine construct_minimal _ _ ?_ (Tensor.ofFn_wf _ _)
      (conv_flat_nonneg hv1.2.2.1 hv2.2.2.1 p) hs
    have h1 := hv1.1
    have h2 := hv2.1
    simp only [List.length_zipWith, conv_shape, convShape]
    rw [h1, h2]
  · intro lhs rhs p hv1 hv2 hs
    refine construct_minimal _ _ ?_ (Tensor.ofFn_wf _ _)
      (conv_flat_nonneg hv1.2.2.1 (reverseAll_flat_nonneg hv2.2.2.1) p) hs
    have h1 := hv1.1
    have h2 := hv2.1
    simp only [List.length_zipWith, conv_shape, convShape, reverseAll_shape,
      PMF.last_support, List.length_map]
    rw [h1, h2]
    omega
  · intro q keep p hv hnd hmem hm hraw
    exact marginal_minimal hv hnd hmem p hm hraw

/-- Witness for C2: the construction clause at a concrete grid. -/
theorem C2_minimal_support_invariant_witness :
    (PMF.construct [0] (Tensor.mk [2] [1/3, 2/3])).table.minimalSupport
      PMF.relative_mass_threshold_for_bounding_box := by
  refine C2_minimal_support_invariant.1 [0] (Tensor.mk [2] [1/3, 2/3]) rfl rfl ?_ ?_
  · intro x hx
    have hx' : x ∈ ([1/3, 2/3] : List ℚ) := hx
    rcases List.mem_cons.mp hx' with h | h'
    · rw [h]; norm_num
    · rcases List.mem_cons.mp h' with h | h
      · rw [h]; norm_num
      · exact absurd h (List.not_mem_nil x)
  · show (0:ℚ) < ([1/3, 2/3] : List ℚ).sum
    norm_num

theorem tensor_sum_pos_of_get_pos {t : Tensor} (hwf : t.wf) (h0 : ∀ x ∈ t.flat, 0 ≤ x)
    {k : List ℕ} (hk : List.Forall₂ (· < ·) k t.shape) (hp : 0 < t.get k) :
    0 < t.flat.sum := by
  refine sum_pos_of_mem_pos h0 ?_ hp
  rw [← Tensor.map_get_flat hwf]
  exact List.mem_map.mpr ⟨k, mem_allTuples.mpr hk, rfl⟩

theorem valid_exists_pos_cell {q : PMF} (hv : q.Valid) :
    ∃ i, List.Forall₂ (· < ·) i q.table.shape ∧ 0 < q.table.get i := by
  have hx := exists_pos_of_sum_pos (show 0 < q.table.flat.sum by rw [hv.2.2.2]; norm_num)
  rcases hx with ⟨x, hmem, hpos⟩
  rw [← Tensor.map_get_flat hv.2.1] at hmem
  rcases List.mem_map.mp hmem with ⟨i, hi, rfl⟩
  exact ⟨i, mem_allTuples.mp hi, hpos⟩

theorem add_valid_convShape {i j sa sb : List ℕ} (hd : sa.length = sb.length)
    (hi : List.Forall₂ (· < ·) i sa) (hj : List.Forall₂ (· < ·) j sb) :
    List.Forall₂ (· < ·) (List.zipWith (· + ·) i j) (convShape sa sb) := by
  rcases (forall₂_iff_getD (· < ·) 0 0).mp hi with ⟨hli, hpi⟩
  rcases (forall₂_iff_getD (· < ·) 0 0).mp hj with ⟨hlj, hpj⟩
  refine (forall₂_iff_getD (· < ·) 0 0).mpr ⟨?_, ?_⟩
  · simp only [List.length_zipWith, convShape]
    omega
  · intro a ha
    simp only [convShape, List.length_zipWith] at ha
    rw [getD_zipWith _ _ _ a (by omega) (by omega) 0 0 0]
    show _ < (List.zipWith (fun m n => m + n - 1) sa sb).getD a 0
    rw [getD_zipWith _ _ _ a (by omega) (by omega) 0 0 0]
    have h1 := hpi a (by omega)
    have h2 := hpj a (by omega)
    omega

theorem subIdx_add {i j : List ℕ} (hlen : i.length = j.length) :
    subIdx (List.zipWith (· + ·) i j) i = j := by
  apply List.ext_getElem
  · simp [subIdx, hlen]
  · intro a h1 h2
    rw [← List.getD_eq_getElem _ 0 h1, ← List.getD_eq_getElem _ 0 h2]
    unfold subIdx
    rw [getD_zipWith _ _ _ a (by simp [List.length_zipWith]; omega) (by omega) 0 0 0,
      getD_zipWith _ _ _ a (by omega) (by omega) 0 0 0]
    omega

theorem convCell_ge_term {a b : Tensor} (hd : a.shape.length = b.shape.length)
    (ha0 : ∀ x ∈ a.flat, 0 ≤ x) (hb0 : ∀ x ∈ b.flat, 0 ≤ x) {i j : List ℕ}
    (hi : List.Forall₂ (· < ·) i a.shape) (hj : List.Forall₂ (· < ·) j b.shape) :
    a.get i * b.get j ≤ convCell a b (List.zipWith (· + ·) i j) := by
  have hli : i.length = a.shape.length := List.Forall₂.length_eq hi
  have hlj : j.length = b.shape.length := List.Forall₂.length_eq hj
  have hsub : subIdx (List.zipWith (· + ·) i j) i = j := subIdx_add (by omega)
  have hle : List.Forall₂ (· ≤ ·) i (List.zipWith (· + ·) i j) := by
    refine (forall₂_iff_getD (· ≤ ·) 0 0).mpr ⟨by simp [List.length_zipWith]; omega, ?_⟩
    intro x hx
    simp only [List.length_zipWith] at hx
    rw [getD_zipWith _ _ _ x (by omega) (by omega) 0 0 0]
    omega
  have hterm : (if List.Forall₂ (· ≤ ·) i (List.zipWith (· + ·) i j)
      ∧ List.Forall₂ (· < ·) (subIdx (List.zipWith (· + ·) i j) i) b.shape
      then a.get i * b.get (subIdx (List.zipWith (· + ·) i j) i) else 0)
      = a.get i * b.get j := by
    rw [if_pos ⟨hle, by rw [hsub]; exact hj⟩, hsub]
  unfold convCell
  refine le_trans (le_of_eq hterm.symm) (List.single_le_sum ?_ _ ?_)
  · intro x hx
    rcases List.mem_map.mp hx with ⟨y, _, rfl⟩
    split
    · exact mul_nonneg (Tensor.get_nonneg ha0 _) (Tensor.get_nonneg hb0 _)
    · exact le_refl 0
  · exact List.mem_map.mpr ⟨i, mem_allTuples.mpr hi, rfl⟩

theorem boxFirst_getD_eq_zero {t : Tensor} {a : ℕ} (ha : a < t.shape.length)
    {c : List ℕ} (hc : c ∈ qualifyingTuples t PMF.relative_mass_threshold_for_bounding_box)
    (hc0 : c.getD a 0 = 0) : (boxFirst t).getD a 0 = 0 := by
  have := boxFirst_le_of_qual ha hc
  omega

theorem zipWith_add_ofNat_zero {sup : List ℤ} {bf : List ℕ} (hlen : bf.length = sup.length)
    (h : ∀ a < bf.length, bf.getD a 0 = 0) :
    List.zipWith (· + ·) sup (bf.map Int.ofNat) = sup := by
  apply List.ext_getElem
  · simp [List.length_zipWith, hlen]
  · intro a h1 h2
    rw [← List.getD_eq_getElem _ 0 h1, ← List.getD_eq_getElem _ 0 h2]
    rw [getD_zipWith _ _ _ a (by omega) (by simp [List.length_map]; omega) 0 0 0,
      getD_map_lt _ _ _ (by omega) 0 0, h a (by omega)]
    simp

theorem construct_conv_first_support {ta tb : Tensor} (hd : ta.shape.length = tb.shape.length)
    (hwa : ta.wf) (hwb : tb.wf)
    (h0a : ∀ x ∈ ta.flat, 0 ≤ x) (h0b : ∀ x ∈ tb.flat, 0 ≤ x)
    (hpos : ∃ i j, List.Forall₂ (· < ·) i ta.shape ∧ List.Forall₂ (· < ·) j tb.shape
      ∧ 0 < ta.get i * tb.get j)
    (hfront : ∀ a < ta.shape.length,
      (∃ i, List.Forall₂ (· < ·) i ta.shape ∧ i.getD a 0 = 0 ∧ 0 < ta.get i)
      ∧ (∃ j, List.Forall₂ (· < ·) j tb.shape ∧ j.getD a 0 = 0 ∧ 0 < tb.get j))
    (p : ℚ) (sup : List ℤ) (hsl : sup.length = ta.shape.length) :
    (PMF.construct sup (numeric_p_convolve ta tb p)).first_support = sup := by
  have hconv_shape_len : (numeric_p_convolve ta tb p).shape.length = ta.shape.length := by
    simp only [conv_shape, convShape, List.length_zipWith]
    omega
  have hconv0 : ∀ x ∈ (numeric_p_convolve ta tb p).flat, 0 ≤ x := conv_flat_nonneg h0a h0b p
  rcases hpos with ⟨i0, j0, hi0, hj0, hp0⟩
  have hcell0 : 0 < (numeric_p_convolve ta tb p).get (List.zipWith (· + ·) i0 j0) := by
    rw [show (numeric_p_convolve ta tb p).get (List.zipWith (· + ·) i0 j0)
        = convCell ta tb (List.zipWith (· + ·) i0 j0) from
      Tensor.get_ofFn (add_valid_convShape hd hi0 hj0)]
    exact lt_of_lt_of_le hp0 (convCell_ge_term hd h0a h0b hi0 hj0)
  have hsum : 0 < (numeric_p_convolve ta tb p).flat.sum :=
    tensor_sum_pos_of_get_pos (Tensor.ofFn_wf _ _) hconv0
      (by rw [conv_shape]; exact add_valid_convShape hd hi0 hj0) hcell0
  rw [construct_first_support sup (numeric_p_convolve ta tb p) (by omega)
    (Tensor.ofFn_wf _ _) hconv0 (by rw [mass_thresh_eq]; exact hsum)]
  have hnn := Tensor.normalize_shape (numeric_p_convolve ta tb p)
  apply zipWith_add_ofNat_zero
  · rw [boxFirst_length, hnn, hconv_shape_len, hsl]
  · intro a ha
    rw [boxFirst_length, hnn, hconv_shape_len] at ha
    rcases hfront a ha with ⟨⟨c1, hc1v, hc1z, hc1p⟩, ⟨c2, hc2v, hc2z, hc2p⟩⟩
    have hkval : List.Forall₂ (· < ·) (List.zipWith (· + ·) c1 c2)
        ((numeric_p_convolve ta tb p).normalize.shape) := by
      rw [hnn, conv_shape]
      exact add_valid_convShape hd hc1v hc2v
    have hkq : List.zipWith (· + ·) c1 c2
        ∈ qualifyingTuples ((numeric_p_convolve ta tb p).normalize)
          PMF.relative_mass_threshold_for_bounding_box := by
      refine mem_qualifying_zero.mpr ⟨hkval, ?_⟩
      rw [Tensor.normalize_get]
      refine div_pos ?_ hsum
      rw [show (numeric_p_convolve ta tb p).get (List.zipWith (· + ·) c1 c2)
          = convCell ta tb (List.zipWith (· + ·) c1 c2) from
        Tensor.get_ofFn (add_valid_convShape hd hc1v hc2v)]
      exact lt_of_lt_of_le (mul_pos hc1p hc2p) (convCell_ge_term hd h0a h0b hc1v hc2v)
    refine boxFirst_getD_eq_zero (by rw [hnn, hconv_shape_len]; exact ha) hkq ?_
    have hl1 : c1.length = ta.shape.length := List.Forall₂.length_eq hc1v
    have hl2 : c2.length = tb.shape.length := List.Forall₂.length_eq hc2v
    rw [getD_zipWith _ _ _ a (by omega) (by omega) 0 0 0, hc1z, hc2z]

theorem flipIdx_valid {s idx : List ℕ} (h : List.Forall₂ (· < ·) idx s) :
    List.Forall₂ (· < ·) (flipIdx s idx) s := by
  rcases (forall₂_iff_getD (· < ·) 0 0).mp h with ⟨hl, hp⟩
  refine (forall₂_iff_getD (· < ·) 0 0).mpr ⟨by simp [flipIdx, List.length_zipWith]; omega, ?_⟩
  intro a ha
  unfold flipIdx
  rw [getD_zipWith _ _ _ a (by omega) (by omega) 0 0 0]
  have := hp a ha
  omega

theorem flipIdx_flipIdx {s idx : List ℕ} (h : List.Forall₂ (· < ·) idx s) :
    flipIdx s (flipIdx s idx) = idx := by
  rcases (forall₂_iff_getD (· < ·) 0 0).mp h with ⟨hl, hp⟩
  apply List.ext_getElem
  · simp [flipIdx, List.length_zipWith]
    omega
  · intro a h1 h2
    have ha : a < s.length := by omega
    rw [← List.getD_eq_getElem _ 0 h1, ← List.getD_eq_getElem _ 0 h2]
    unfold flipIdx
    rw [getD_zipWith _ _ _ a (by omega) (by simp [List.length_zipWith]; omega) 0 0 0,
      getD_zipWith _ _ _ a (by omega) (by omega) 0 0 0]
    have := hp a ha
    omega

theorem reverseAll_get_flip {t : Tensor} {idx : List ℕ}
    (h : List.Forall₂ (· < ·) idx t.shape) :
    t.reverseAll.get (flipIdx t.shape idx) = t.get idx := by
  rw [show t.reverseAll.get (flipIdx t.shape idx)
      = t.get (flipIdx t.shape (flipIdx t.shape idx)) from
    Tensor.get_ofFn (flipIdx_valid h), flipIdx_flipIdx h]

theorem p_add_origin {A B : PMF} (hvA : A.Valid) (hvB : B.Valid)
    (hd : A.dimension = B.dimension)
    (hmA : A.table.minimalSupport PMF.relative_mass_threshold_for_bounding_box)
    (hmB : B.table.minimalSupport PMF.relative_mass_threshold_for_bounding_box)
    (p : ℚ) :
    (p_add A B p).first_support
      = List.zipWith (· + ·) A.first_support B.first_support := by
  have h1 := hvA.1
  have h2 := hvB.1
  unfold PMF.dimension at hd
  have hd' : A.table.shape.length = B.table.shape.length := by omega
  show (PMF.construct (List.zipWith (· + ·) A.first_support B.first_support)
    (numeric_p_convolve A.table B.table p)).first_support = _
  refine construct_conv_first_support hd' hvA.2.1 hvB.2.1 hvA.2.2.1 hvB.2.2.1 ?_ ?_ p _ ?_
  · rcases valid_exists_pos_cell hvA with ⟨i, hi, hpi⟩
    rcases valid_exists_pos_cell hvB with ⟨j, hj, hpj⟩
    exact ⟨i, j, hi, hj, mul_pos hpi hpj⟩
  · intro a ha
    rcases (hmA a ha).1 with ⟨i, hi, hiz, hip⟩
    rcases (hmB a (by omega)).1 with ⟨j, hj, hjz, hjp⟩
    rw [rel_thresh_eq, zero_mul] at hip hjp
    exact ⟨⟨i, hi, hiz, hip⟩, ⟨j, hj, hjz, hjp⟩⟩
  · rw [List.length_zipWith]
    omega

theorem p_sub_origin {A B : PMF} (hvA : A.Valid) (hvB : B.Valid)
    (hd : A.dimension = B.dimension)
    (hmA : A.table.minimalSupport PMF.relative_mass_threshold_for_bounding_box)
    (hmB : B.table.minimalSupport PMF.relative_mass_threshold_for_bounding_box)
    (p : ℚ) :
    (p_sub A B p).first_support
      = List.zipWith (· - ·) A.first_support B.last_support := by
  have h1 := hvA.1
  have h2 := hvB.1
  unfold PMF.dimension at hd
  have hd' : A.table.shape.length = B.table.reverseAll.shape.length := by
    rw [reverseAll_shape]; omega
  show (PMF.construct (List.zipWith (· - ·) A.first_support B.last_support)
    (numeric_p_convolve A.table B.table.reverseAll p)).first_support = _
  refine construct_conv_first_support hd' hvA.2.1 (Tensor.ofFn_wf _ _) hvA.2.2.1
    (reverseAll_flat_nonneg hvB.2.2.1) ?_ ?_ p _ ?_
  · rcases valid_exists_pos_cell hvA with ⟨i, hi, hpi⟩
    rcases valid_exists_pos_cell hvB with ⟨j, hj, hpj⟩
    refine ⟨i, flipIdx B.table.shape j, hi, ?_, ?_⟩
    · rw [reverseAll_shape]
      exact flipIdx_valid hj
    · rw [reverseAll_get_flip hj]
      exact mul_pos hpi hpj
  · intro a ha
    rcases (hmA a ha).1 with ⟨i, hi, hiz, hip⟩
    rcases (hmB a (by omega)).2 with ⟨j, hj, hjz, hjp⟩
    rw [rel_thresh_eq, zero_mul] at hip hjp
    refine ⟨⟨i, hi, hiz, hip⟩, ⟨flipIdx B.table.shape j, ?_, ?_, ?_⟩⟩
    · rw [reverseAll_shape]
      exact flipIdx_valid hj
    · have hjl : j.length = B.table.shape.length := List.Forall₂.length_eq hj
      unfold flipIdx
      rw [getD_zipWith _ _ _ a (by omega) (by omega) 0 0 0, hjz]
      have hsa : 0 < B.table.shape.getD a 0 := by
        have := qual_getD_lt_shape (t := B.table) (a := a) (by omega) hj
        omega
      omega
    · rw [reverseAll_get_flip hj]
      exact hjp
  · rw [List.length_zipWith, PMF.last_support, List.length_zipWith, List.length_map]
    omega

/-- Counterexample for C3 as stated: the caller-visible PMF with
support origin `[1]` and masses `[0, 1]` — exactly what
`narrow_support` produces from `[1/2, 0, 1/2]` narrowed to `[1, 2]`
(see `C2_counterexample`) — breaks the add-origin law: the
convolution's all-zero leading slice is trimmed by
narrow-to-nonzero-support, shifting the result origin to `[4] ≠ [2]`. -/
theorem C3_counterexample :
    PMF.Valid (PMF.mk [1] (Tensor.mk [2] [0, 1]))
    ∧ (p_add (PMF.mk [1] (Tensor.mk [2] [0, 1]))
          (PMF.mk [1] (Tensor.mk [2] [0, 1])) 1).first_support
      ≠ List.zipWith (· + ·) (PMF.mk [1] (Tensor.mk [2] [0, 1])).first_support
          (PMF.mk [1] (Tensor.mk [2] [0, 1])).first_support := by
  have h01 : ∀ x ∈ (Tensor.mk [2] [0, 1]).flat, (0:ℚ) ≤ x := by
    intro x hx
    have hx' : x ∈ ([0, 1] : List ℚ) := hx
    rcases List.mem_cons.mp hx' with h | h'
    · rw [h]
    · rcases List.mem_cons.mp h' with h | h
      · rw [h]; norm_num
      · exact absurd h (List.not_mem_nil x)
  constructor
  · refine ⟨rfl, rfl, h01, ?_⟩
    show ([0, 1] : List ℚ).sum = 1
    norm_num
  · intro heq
    have hcell : (1:ℚ) * 1 ≤ (numeric_p_convolve (Tensor.mk [2] [0, 1])
        (Tensor.mk [2] [0, 1]) 1).get [2] := by
      rw [show (numeric_p_convolve (Tensor.mk [2] [0, 1]) (Tensor.mk [2] [0, 1]) 1).get [2]
          = convCell (Tensor.mk [2] [0, 1]) (Tensor.mk [2] [0, 1]) [2] from
        Tensor.get_ofFn (by decide)]
      have h := convCell_ge_term (a := Tensor.mk [2] [0, 1]) (b := Tensor.mk [2] [0, 1])
        rfl h01 h01 (i := [1]) (j := [1]) (by decide) (by decide)
      rw [show (Tensor.mk [2] [0, 1]).get [1] = (1:ℚ) from rfl] at h
      exact h
    have hpos2 : (0:ℚ) < (numeric_p_convolve (Tensor.mk [2] [0, 1])
        (Tensor.mk [2] [0, 1]) 1).get [2] := lt_of_lt_of_le (by norm_num) hcell
    have hsum : 0 < (numeric_p_convolve (Tensor.mk [2] [0, 1])
        (Tensor.mk [2] [0, 1]) 1).flat.sum :=
      tensor_sum_pos_of_get_pos (Tensor.ofFn_wf _ _) (conv_flat_nonneg h01 h01 1)
        (by decide) hpos2
    have happl := construct_first_support (List.zipWith (· + ·) [1] [1])
      (numeric_p_convolve (Tensor.mk [2] [0, 1]) (Tensor.mk [2] [0, 1]) 1)
      (by decide) (Tensor.ofFn_wf _ _) (conv_flat_nonneg h01 h01 1)
      (by rw [mass_thresh_eq]; exact hsum)
    have heq' : List.zipWith (· + ·) (List.zipWith (· + ·) [(1:ℤ)] [1])
        (((boxFirst ((numeric_p_convolve (Tensor.mk [2] [0, 1])
          (Tensor.mk [2] [0, 1]) 1).normalize))).map Int.ofNat)
        = List.zipWith (· + ·) [(1:ℤ)] [1] := by
      rw [← happl]
      exact heq
    have hbfl : (boxFirst ((numeric_p_convolve (Tensor.mk [2] [0, 1])
        (Tensor.mk [2] [0, 1]) 1).normalize)).length = 1 := by
      rw [boxFirst_length]
      rfl
    have hbf0 : (boxFirst ((numeric_p_convolve (Tensor.mk [2] [0, 1])
        (Tensor.mk [2] [0, 1]) 1).normalize)).getD 0 0 = 0 := by
      have hg := congrArg (fun l => l.getD 0 0) heq'
      simp only at hg
      rw [getD_zipWith _ _ _ 0 (by simp) (by rw [List.length_map, hbfl]; omega) 0 0 0,
        getD_map_lt _ _ _ (by omega) 0 0] at hg
      simp only [Int.ofNat_eq_coe] at hg
      have : ((List.zipWith (· + ·) [(1:ℤ)] [1]).getD 0 0) = 2 := rfl
      rw [this] at hg
      omega
    have hq2 : [2] ∈ qualifyingTuples ((numeric_p_convolve (Tensor.mk [2] [0, 1])
        (Tensor.mk [2] [0, 1]) 1).normalize)
        PMF.relative_mass_threshold_for_bounding_box := by
      refine mem_qualifying_zero.mpr ⟨by decide, ?_⟩
      rw [Tensor.normalize_get]
      exact div_pos hpos2 hsum
    rcases bbox_fst_attained (List.ne_nil_of_mem hq2) (a := 0) (by decide)
      with ⟨c, hcq, hcv⟩
    rcases mem_qualifying_zero.mp hcq with ⟨hcvld, hcpos⟩
    have hcv0 : c.getD 0 0 = 0 := by
      have hcv' : c.getD 0 0 = (boxFirst ((numeric_p_convolve (Tensor.mk [2] [0, 1])
          (Tensor.mk [2] [0, 1]) 1).normalize)).getD 0 0 := hcv
      rw [hcv', hbf0]
    have hsh : ((numeric_p_convolve (Tensor.mk [2] [0, 1])
        (Tensor.mk [2] [0, 1]) 1).normalize).shape = [3] := rfl
    rw [hsh] at hcvld
    rcases List.forall₂_cons_right_iff.mp hcvld with ⟨x, rest, hlt, hrest, rfl⟩
    have hrest0 : rest = [] := by cases hrest; rfl
    subst hrest0
    have hx0 : x = 0 := by simpa using hcv0
    subst hx0
    rw [Tensor.normalize_get] at hcpos
    have hz : (numeric_p_convolve (Tensor.mk [2] [0, 1])
        (Tensor.mk [2] [0, 1]) 1).get [0] = 0 := by
      rw [show (numeric_p_convolve (Tensor.mk [2] [0, 1])
          (Tensor.mk [2] [0, 1]) 1).get [0] = 0 * 0 + (0 + 0) from rfl]
      norm_num
    rw [hz, zero_div] at hcpos
    exact lt_irrefl 0 hcpos

/-- **C3** (amended): for PMFs `A` and `B` of equal dimension whose
grids additionally satisfy the minimal-support invariant (the state
every freshly constructed PMF is in; a `narrow`-produced PMF can
violate it, which is what the counterexample exploits),
`add(A, B, 1).first_support` equals the elementwise sum
`A.first_support + B.first_support`. -/
theorem C3_add_origin_law {A B : PMF} (hvA : A.Valid) (hvB : B.Valid)
    (hd : A.dimension = B.dimension)
    (hmA : A.table.minimalSupport PMF.relative_mass_threshold_for_bounding_box)
    (hmB : B.table.minimalSupport PMF.relative_mass_threshold_for_bounding_box) :
    (p_add A B 1).first_support
      = List.zipWith (· + ·) A.first_support B.first_support :=
  p_add_origin hvA hvB hd hmA hmB 1

theorem valid_half_half : PMF.Valid (PMF.mk [0] (Tensor.mk [2] [1/2, 1/2])) := by
  refine ⟨rfl, rfl, ?_, ?_⟩
  · intro x hx
    have hx' : x ∈ ([1/2, 1/2] : List ℚ) := hx
    have h12 : (0:ℚ) ≤ 1/2 := by norm_num
    rcases List.mem_cons.mp hx' with h | h'
    · rw [h]; exact h12
    · rcases List.mem_cons.mp h' with h | h
      · rw [h]; exact h12
      · exact absurd h (List.not_mem_nil x)
  · show ([1/2, 1/2] : List ℚ).sum = 1
    norm_num

theorem minimal_half_half :
    (Tensor.mk [2] [1/2, 1/2]).minimalSupport
      PMF.relative_mass_threshold_for_bounding_box := by
  intro a ha
  have ha0 : a = 0 := by
    have h1 : (Tensor.mk [2] [1/2, 1/2]).shape.length = 1 := rfl
    omega
  subst ha0
  rw [rel_thresh_eq]
  constructor
  · refine ⟨[0], by decide, rfl, ?_⟩
    rw [zero_mul, show (Tensor.mk [2] [1/2, 1/2]).get [0] = 1/2 from rfl]
    norm_num
  · refine ⟨[1], by decide, rfl, ?_⟩
    rw [zero_mul, show (Tensor.mk [2] [1/2, 1/2]).get [1] = 1/2 from rfl]
    norm_num

/-- Witness for C3 at a concrete pair of minimal-support PMFs. -/
theorem C3_add_origin_law_witness :
    (p_add (PMF.mk [0] (Tensor.mk [2] [1/2, 1/2]))
        (PMF.mk [0] (Tensor.mk [2] [1/2, 1/2])) 1).first_support
      = List.zipWith (· + ·) [0] [0] :=
  C3_add_origin_law valid_half_half valid_half_half rfl
    minimal_half_half minimal_half_half

/-- **C4** (amended): `subtract` is computed by reversing the
right-hand grid along every axis — the built flipped grid satisfies
`flipped[n-1-i] = rhs[i]` on every in-range cell — and then convolving
with the left grid; and for `p = 1`, when both inputs additionally
satisfy the minimal-support invariant (a `narrow`-produced PMF can
violate it, which is what the counterexample exploits), the result's
`first_support` equals `A.first_support - B.last_support` elementwise. -/
theorem C4_subtract_reverses_and_origin :
    (∀ (B : PMF) (idx : List ℕ), List.Forall₂ (· < ·) idx B.table.shape →
      B.table.reverseAll.get (flipIdx B.table.shape idx) = B.table.get idx)
    ∧ (∀ (A B : PMF) (p : ℚ), p_sub A B p
        = PMF.construct (List.zipWith (· - ·) A.first_support B.last_support)
          (numeric_p_convolve A.table B.table.reverseAll p))
    ∧ (∀ (A B : PMF), A.Valid → B.Valid → A.dimension = B.dimension →
      A.table.minimalSupport PMF.relative_mass_threshold_for_bounding_box →
      B.table.minimalSupport PMF.relative_mass_threshold_for_bounding_box →
      (p_sub A B 1).first_support
        = List.zipWith (· - ·) A.first_support B.last_support) :=
  ⟨fun _ _ h => reverseAll_get_flip h,
   fun _ _ _ => rfl,
   fun _ _ hvA hvB hd hmA hmB => p_sub_origin hvA hvB hd hmA hmB 1⟩

/-- Witness for C4 at a concrete pair of minimal-support PMFs:
`A - A` for the two-point PMF at `[0, 1]`. -/
theorem C4_subtract_reverses_and_origin_witness :
    (Tensor.mk [2] [1/2, 1/2]).reverseAll.get (flipIdx [2] [0])
        = (Tensor.mk [2] [1/2, 1/2]).get [0]
    ∧ (p_sub (PMF.mk [0] (Tensor.mk [2] [1/2, 1/2]))
        (PMF.mk [0] (Tensor.mk [2] [1/2, 1/2])) 1).first_support
      = List.zipWith (· - ·) [0]
          (PMF.mk [0] (Tensor.mk [2] [1/2, 1/2])).last_support :=
  ⟨C4_subtract_reverses_and_origin.1 (PMF.mk [0] (Tensor.mk [2] [1/2, 1/2])) [0]
      (by decide),
   C4_subtract_reverses_and_origin.2.2 (PMF.mk [0] (Tensor.mk [2] [1/2, 1/2]))
      (PMF.mk [0] (Tensor.mk [2] [1/2, 1/2])) valid_half_half valid_half_half rfl
      minimal_half_half minimal_half_half⟩

/-- Counterexample for C4 as stated: with the caller-visible,
narrow-produced PMF at origin `[1]` with masses `[0, 1]`, the
subtraction convolution has an all-zero leading slice, so the
construction trims it and the result origin is not
`A.first_support - B.last_support`. -/
theorem C4_counterexample :
    PMF.Valid (PMF.mk [1] (Tensor.mk [2] [0, 1]))
    ∧ (p_sub (PMF.mk [1] (Tensor.mk [2] [0, 1]))
          (PMF.mk [1] (Tensor.mk [2] [0, 1])) 1).first_support
      ≠ List.zipWith (· - ·) (PMF.mk [1] (Tensor.mk [2] [0, 1])).first_support
          (PMF.mk [1] (Tensor.mk [2] [0, 1])).last_support := by
  have h01 : ∀ x ∈ (Tensor.mk [2] [0, 1]).flat, (0:ℚ) ≤ x := by
    intro x hx
    have hx' : x ∈ ([0, 1] : List ℚ) := hx
    rcases List.mem_cons.mp hx' with h | h'
    · rw [h]
    · rcases List.mem_cons.mp h' with h | h
      · rw [h]; norm_num
      · exact absurd h (List.not_mem_nil x)
  have h10 : ∀ x ∈ (Tensor.mk [2] [0, 1]).reverseAll.flat, (0:ℚ) ≤ x :=
    reverseAll_flat_nonneg h01
  constructor
  · refine ⟨rfl, rfl, h01, ?_⟩
    show ([0, 1] : List ℚ).sum = 1
    norm_num
  · intro heq
    have hcell : (1:ℚ) * 1 ≤ (numeric_p_convolve (Tensor.mk [2] [0, 1])
        (Tensor.mk [2] [0, 1]).reverseAll 1).get [1] := by
      rw [show (numeric_p_convolve (Tensor.mk [2] [0, 1])
          (Tensor.mk [2] [0, 1]).reverseAll 1).get [1]
          = convCell (Tensor.mk [2] [0, 1]) (Tensor.mk [2] [0, 1]).reverseAll [1] from
        Tensor.get_ofFn (by decide)]
      have h := convCell_ge_term (a := Tensor.mk [2] [0, 1])
        (b := (Tensor.mk [2] [0, 1]).reverseAll)
        rfl h01 h10 (i := [1]) (j := [0]) (by decide) (by decide)
      rw [show (Tensor.mk [2] [0, 1]).get [1] = (1:ℚ) from rfl,
        show (Tensor.mk [2] [0, 1]).reverseAll.get [0] = (1:ℚ) from rfl] at h
      exact h
    have hpos1 : (0:ℚ) < (numeric_p_convolve (Tensor.mk [2] [0, 1])
        (Tensor.mk [2] [0, 1]).reverseAll 1).get [1] := lt_of_lt_of_le (by norm_num) hcell
    have hsum : 0 < (numeric_p_convolve (Tensor.mk [2] [0, 1])
        (Tensor.mk [2] [0, 1]).reverseAll 1).flat.sum :=
      tensor_sum_pos_of_get_pos (Tensor.ofFn_wf _ _) (conv_flat_nonneg h01 h10 1)
        (by decide) hpos1
    have happl := construct_first_support
      (List.zipWith (· - ·) [1] ((PMF.mk [1] (Tensor.mk [2] [0, 1])).last_support))
      (numeric_p_convolve (Tensor.mk [2] [0, 1]) (Tensor.mk [2] [0, 1]).reverseAll 1)
      (by decide) (Tensor.ofFn_wf _ _) (conv_flat_nonneg h01 h10 1)
      (by rw [mass_thresh_eq]; exact hsum)
    have heq' : List.zipWith (· + ·)
        (List.zipWith (· - ·) [(1:ℤ)] ((PMF.mk [1] (Tensor.mk [2] [0, 1])).last_support))
        (((boxFirst ((numeric_p_convolve (Tensor.mk [2] [0, 1])
          (Tensor.mk [2] [0, 1]).reverseAll 1).normalize))).map Int.ofNat)
        = List.zipWith (· - ·) [(1:ℤ)] ((PMF.mk [1] (Tensor.mk [2] [0, 1])).last_support) := by
      rw [← happl]
      exact heq
    have hbfl : (boxFirst ((numeric_p_convolve (Tensor.mk [2] [0, 1])
        (Tensor.mk [2] [0, 1]).reverseAll 1).normalize)).length = 1 := by
      rw [boxFirst_length]
      rfl
    have hbf0 : (boxFirst ((numeric_p_convolve (Tensor.mk [2] [0, 1])
        (Tensor.mk [2] [0, 1]).reverseAll 1).normalize)).getD 0 0 = 0 := by
      have hg := congrArg (fun l => l.getD 0 0) heq'
      simp only at hg
      rw [getD_zipWith _ _ _ 0 (by decide) (by rw [List.length_map, hbfl]; omega) 0 0 0,
        getD_map_lt _ _ _ (by omega) 0 0] at hg
      simp only [Int.ofNat_eq_coe] at hg
      have hm1 : ((List.zipWith (· - ·) [(1:ℤ)]
          ((PMF.mk [1] (Tensor.mk [2] [0, 1])).last_support)).getD 0 0) = -1 := rfl
      rw [hm1] at hg
      omega
    have hq1 : [1] ∈ qualifyingTuples ((numeric_p_convolve (Tensor.mk [2] [0, 1])
        (Tensor.mk [2] [0, 1]).reverseAll 1).normalize)
        PMF.relative_mass_threshold_for_bounding_box := by
      refine mem_qualifying_zero.mpr ⟨by decide, ?_⟩
      rw [Tensor.normalize_get]
      exact div_pos hpos1 hsum
    rcases bbox_fst_attained (List.ne_nil_of_mem hq1) (a := 0) (by decide)
      with ⟨c, hcq, hcv⟩
    rcases mem_qualifying_zero.mp hcq with ⟨hcvld, hcpos⟩
    have hcv0 : c.getD 0 0 = 0 := by
      have hcv' : c.getD 0 0 = (boxFirst ((numeric_p_convolve (Tensor.mk [2] [0, 1])
          (Tensor.mk [2] [0, 1]).reverseAll 1).normalize)).getD 0 0 := hcv
      rw [hcv', hbf0]
    have hsh : ((numeric_p_convolve (Tensor.mk [2] [0, 1])
        (Tensor.mk [2] [0, 1]).reverseAll 1).normalize).shape = [3] := rfl
    rw [hsh] at hcvld
    rcases List.forall₂_cons_right_iff.mp hcvld with ⟨x, rest, hlt, hrest, rfl⟩
    have hrest0 : rest = [] := by cases hrest; rfl
    subst hrest0
    have hx0 : x = 0 := by simpa using hcv0
    subst hx0
    rw [Tensor.normalize_get] at hcpos
    have hz : (numeric_p_convolve (Tensor.mk [2] [0, 1])
        (Tensor.mk [2] [0, 1]).reverseAll 1).get [0] = 0 := by
      rw [show (numeric_p_convolve (Tensor.mk [2] [0, 1])
          (Tensor.mk [2] [0, 1]).reverseAll 1).get [0] = 0 * 1 + (0 + 0) from rfl]
      norm_num
    rw [hz, zero_div] at hcpos
    exact lt_irrefl 0 hcpos

theorem tensor_eq_of_parts {u v : Tensor} (h1 : u.shape = v.shape)
    (h2 : u.flat = v.flat) : u = v := by
  obtain ⟨s1, f1⟩ := u
  obtain ⟨s2, f2⟩ := v
  simp only at h1 h2
  rw [h1, h2]

/-- **C8**: the spec's round-trip example, in exact arithmetic: the
1-D PMF with support `[0, 2]` and masses `[1/4, 1/2, 1/4]` added to
itself at the canonical parameter `p = 1` yields support `[0, 4]` and
masses `[1/16, 1/4, 3/8, 1/4, 1/16]` (exact equality, which implies
the informal 1e-9 tolerance). -/
theorem C8_round_trip_example :
    (p_add (PMF.mk [0] (Tensor.mk [3] [1/4, 1/2, 1/4])) (PMF.mk [0] (Tensor.mk [3] [1/4, 1/2, 1/4])) 1).first_support = [0]
    ∧ (p_add (PMF.mk [0] (Tensor.mk [3] [1/4, 1/2, 1/4])) (PMF.mk [0] (Tensor.mk [3] [1/4, 1/2, 1/4])) 1).last_support = [4]
    ∧ (p_add (PMF.mk [0] (Tensor.mk [3] [1/4, 1/2, 1/4])) (PMF.mk [0] (Tensor.mk [3] [1/4, 1/2, 1/4])) 1).table.flat = [1/16, 1/4, 3/8, 1/4, 1/16] := by
  have hflat : (numeric_p_convolve (Tensor.mk [3] [1/4, 1/2, 1/4]) (Tensor.mk [3] [1/4, 1/2, 1/4]) 1).flat
      = [1/4 * (1/4) + (0 + (0 + 0)),
         1/4 * (1/2) + (1/2 * (1/4) + (0 + 0)),
         1/4 * (1/4) + (1/2 * (1/2) + (1/4 * (1/4) + 0)),
         0 + (1/2 * (1/4) + (1/4 * (1/2) + 0)),
         0 + (0 + (1/4 * (1/4) + 0))] := rfl
  have h0T : ∀ x ∈ (Tensor.mk [3] [1/4, 1/2, 1/4]).flat, (0:ℚ) ≤ x := by
    intro x hx
    have hx3 : x ∈ ([1/4, 1/2, 1/4] : List ℚ) := hx
    rcases List.mem_cons.mp hx3 with h | h'
    · rw [h]; norm_num
    · rcases List.mem_cons.mp h' with h | h''
      · rw [h]; norm_num
      · rcases List.mem_cons.mp h'' with h | h
        · rw [h]; norm_num
        · exact absurd h (List.not_mem_nil x)
  have hcnn : ∀ x ∈ (numeric_p_convolve (Tensor.mk [3] [1/4, 1/2, 1/4]) (Tensor.mk [3] [1/4, 1/2, 1/4]) 1).flat, 0 ≤ x := conv_flat_nonneg h0T h0T 1
  have hsum : 0 < (numeric_p_convolve (Tensor.mk [3] [1/4, 1/2, 1/4]) (Tensor.mk [3] [1/4, 1/2, 1/4]) 1).flat.sum := by
    rw [hflat]
    norm_num
  have hchar := construct_char (List.zipWith (· + ·) [0] [0]) (numeric_p_convolve (Tensor.mk [3] [1/4, 1/2, 1/4]) (Tensor.mk [3] [1/4, 1/2, 1/4]) 1)
    (by decide) (Tensor.ofFn_wf _ _) hcnn (by rw [mass_thresh_eq]; exact hsum)
  have hq0 : [0] ∈ qualifyingTuples (numeric_p_convolve (Tensor.mk [3] [1/4, 1/2, 1/4]) (Tensor.mk [3] [1/4, 1/2, 1/4]) 1).normalize
      PMF.relative_mass_threshold_for_bounding_box := by
    refine mem_qualifying_zero.mpr ⟨by decide, ?_⟩
    rw [Tensor.normalize_get]
    refine div_pos ?_ hsum
    rw [show (numeric_p_convolve (Tensor.mk [3] [1/4, 1/2, 1/4]) (Tensor.mk [3] [1/4, 1/2, 1/4]) 1).get [0] = 1/4 * (1/4) + (0 + (0 + 0)) from rfl]
    norm_num
  have hq4 : [4] ∈ qualifyingTuples (numeric_p_convolve (Tensor.mk [3] [1/4, 1/2, 1/4]) (Tensor.mk [3] [1/4, 1/2, 1/4]) 1).normalize
      PMF.relative_mass_threshold_for_bounding_box := by
    refine mem_qualifying_zero.mpr ⟨by decide, ?_⟩
    rw [Tensor.normalize_get]
    refine div_pos ?_ hsum
    rw [show (numeric_p_convolve (Tensor.mk [3] [1/4, 1/2, 1/4]) (Tensor.mk [3] [1/4, 1/2, 1/4]) 1).get [4] = 0 + (0 + (1/4 * (1/4) + 0)) from rfl]
    norm_num
  have hne : qualifyingTuples (numeric_p_convolve (Tensor.mk [3] [1/4, 1/2, 1/4]) (Tensor.mk [3] [1/4, 1/2, 1/4]) 1).normalize
      PMF.relative_mass_threshold_for_bounding_box ≠ [] := List.ne_nil_of_mem hq0
  have ha1 : (0:ℕ) < (numeric_p_convolve (Tensor.mk [3] [1/4, 1/2, 1/4]) (Tensor.mk [3] [1/4, 1/2, 1/4]) 1).normalize.shape.length := by decide
  have hbf : boxFirst (numeric_p_convolve (Tensor.mk [3] [1/4, 1/2, 1/4]) (Tensor.mk [3] [1/4, 1/2, 1/4]) 1).normalize = [0] := by
    apply List.ext_getElem
    · rw [boxFirst_length]
      rfl
    · intro i h1 h2
      have hi : i = 0 := by
        have h2' : i < 1 := h2
        omega
      subst hi
      rw [← List.getD_eq_getElem _ 0 h1, ← List.getD_eq_getElem _ 0 h2]
      rw [boxFirst_getD_eq_zero ha1 hq0 rfl]
      rfl
  have hbl : boxLast (numeric_p_convolve (Tensor.mk [3] [1/4, 1/2, 1/4]) (Tensor.mk [3] [1/4, 1/2, 1/4]) 1).normalize = [4] := by
    apply List.ext_getElem
    · rw [boxLast_length]
      rfl
    · intro i h1 h2
      have hi : i = 0 := by
        have h2' : i < 1 := h2
        omega
      subst hi
      rw [← List.getD_eq_getElem _ 0 h1, ← List.getD_eq_getElem _ 0 h2]
      have hle4 := qual_le_boxLast ha1 hq4
      have hlt5 := boxLast_lt_shape hne ha1
      have h5 : (numeric_p_convolve (Tensor.mk [3] [1/4, 1/2, 1/4]) (Tensor.mk [3] [1/4, 1/2, 1/4]) 1).normalize.shape.getD 0 0 = 5 := rfl
      rw [h5] at hlt5
      have h4 : ([4] : List ℕ).getD 0 0 = 4 := rfl
      rw [h4] at hle4
      show (boxLast (numeric_p_convolve (Tensor.mk [3] [1/4, 1/2, 1/4]) (Tensor.mk [3] [1/4, 1/2, 1/4]) 1).normalize).getD 0 0 = ([4] : List ℕ).getD 0 0
      rw [h4]
      omega
  have hext : boxExtent (numeric_p_convolve (Tensor.mk [3] [1/4, 1/2, 1/4]) (Tensor.mk [3] [1/4, 1/2, 1/4]) 1).normalize = [5] := by
    apply List.ext_getElem
    · rw [boxExtent_length]
      rfl
    · intro i h1 h2
      have hi : i = 0 := by
        have h2' : i < 1 := h2
        omega
      subst hi
      rw [← List.getD_eq_getElem _ 0 h1, ← List.getD_eq_getElem _ 0 h2]
      rw [boxExtent_getD ha1, hbf, hbl]
      rfl
  have hwfn : (numeric_p_convolve (Tensor.mk [3] [1/4, 1/2, 1/4]) (Tensor.mk [3] [1/4, 1/2, 1/4]) 1).normalize.wf := Tensor.normalize_wf (Tensor.ofFn_wf _ _)
  have hshr : (numeric_p_convolve (Tensor.mk [3] [1/4, 1/2, 1/4]) (Tensor.mk [3] [1/4, 1/2, 1/4]) 1).normalize.shrink [0] [5] = (numeric_p_convolve (Tensor.mk [3] [1/4, 1/2, 1/4]) (Tensor.mk [3] [1/4, 1/2, 1/4]) 1).normalize := by
    refine tensor_eq_of_parts rfl ?_
    have hmg : (allTuples [5]).map (numeric_p_convolve (Tensor.mk [3] [1/4, 1/2, 1/4]) (Tensor.mk [3] [1/4, 1/2, 1/4]) 1).normalize.get = (numeric_p_convolve (Tensor.mk [3] [1/4, 1/2, 1/4]) (Tensor.mk [3] [1/4, 1/2, 1/4]) 1).normalize.flat :=
      Tensor.map_get_flat hwfn
    show (allTuples [5]).map
        (fun idx => (numeric_p_convolve (Tensor.mk [3] [1/4, 1/2, 1/4]) (Tensor.mk [3] [1/4, 1/2, 1/4]) 1).normalize.get (List.zipWith (· + ·) [0] idx))
      = (numeric_p_convolve (Tensor.mk [3] [1/4, 1/2, 1/4]) (Tensor.mk [3] [1/4, 1/2, 1/4]) 1).normalize.flat
    rw [← hmg]
    apply List.map_congr_left
    intro idx hidx
    rcases List.forall₂_cons_right_iff.mp (mem_allTuples.mp hidx)
      with ⟨i, rest, hlt, hrest, rfl⟩
    have hrest0 : rest = [] := by cases hrest; rfl
    subst hrest0
    show (numeric_p_convolve (Tensor.mk [3] [1/4, 1/2, 1/4]) (Tensor.mk [3] [1/4, 1/2, 1/4]) 1).normalize.get [0 + i] = (numeric_p_convolve (Tensor.mk [3] [1/4, 1/2, 1/4]) (Tensor.mk [3] [1/4, 1/2, 1/4]) 1).normalize.get [i]
    rw [Nat.zero_add]
  have hPMF : p_add (PMF.mk [0] (Tensor.mk [3] [1/4, 1/2, 1/4])) (PMF.mk [0] (Tensor.mk [3] [1/4, 1/2, 1/4])) 1
      = PMF.mk [0] ((numeric_p_convolve (Tensor.mk [3] [1/4, 1/2, 1/4]) (Tensor.mk [3] [1/4, 1/2, 1/4]) 1).normalize.normalize) := by
    show PMF.construct (List.zipWith (· + ·) [0] [0]) (numeric_p_convolve (Tensor.mk [3] [1/4, 1/2, 1/4]) (Tensor.mk [3] [1/4, 1/2, 1/4]) 1) = _
    rw [hchar, hbf, hext, hshr]
    rfl
  have hts : (numeric_p_convolve (Tensor.mk [3] [1/4, 1/2, 1/4]) (Tensor.mk [3] [1/4, 1/2, 1/4]) 1).normalize.flat.sum = 1 := Tensor.normalize_sum hsum.ne'
  have hfin : (numeric_p_convolve (Tensor.mk [3] [1/4, 1/2, 1/4]) (Tensor.mk [3] [1/4, 1/2, 1/4]) 1).normalize.normalize.flat = (numeric_p_convolve (Tensor.mk [3] [1/4, 1/2, 1/4]) (Tensor.mk [3] [1/4, 1/2, 1/4]) 1).normalize.flat := by
    show (numeric_p_convolve (Tensor.mk [3] [1/4, 1/2, 1/4]) (Tensor.mk [3] [1/4, 1/2, 1/4]) 1).normalize.flat.map (· / (numeric_p_convolve (Tensor.mk [3] [1/4, 1/2, 1/4]) (Tensor.mk [3] [1/4, 1/2, 1/4]) 1).normalize.flat.sum)
      = (numeric_p_convolve (Tensor.mk [3] [1/4, 1/2, 1/4]) (Tensor.mk [3] [1/4, 1/2, 1/4]) 1).normalize.flat
    rw [hts]
    simp [div_one]
  refine ⟨?_, ?_, ?_⟩
  · rw [hPMF]
  · rw [hPMF]
    rfl
  · rw [hPMF]
    show (numeric_p_convolve (Tensor.mk [3] [1/4, 1/2, 1/4]) (Tensor.mk [3] [1/4, 1/2, 1/4]) 1).normalize.normalize.flat = _
    rw [hfin]
    show (numeric_p_convolve (Tensor.mk [3] [1/4, 1/2, 1/4]) (Tensor.mk [3] [1/4, 1/2, 1/4]) 1).flat.map (· / (numeric_p_convolve (Tensor.mk [3] [1/4, 1/2, 1/4]) (Tensor.mk [3] [1/4, 1/2, 1/4]) 1).flat.sum) = _
    rw [hflat]
    norm_num

/-- **C5**: `narrow_support` clamps, per axis, the new upper bound to
the minimum of the requested and current upper bounds and the new
lower bound to the maximum of the requested and current lower bounds,
reshapes the grid to exactly that intersection, re-normalizes the
retained mass to sum 1, and adopts the intersecting lower bound as the
new origin. -/
theorem C5_narrow_semantics (q : PMF) (nf nl : List ℤ)
    (hinter : ∀ i < nl.length,
      (q.interFirst nf).getD i 0 ≤ (q.newLast nl).getD i 0)
    (hs : PMF.mass_threshold_for_normalization < (q.retained nf nl).flat.sum) :
    (q.narrow_support nf nl).first_support = List.zipWith max q.first_support nf
    ∧ (q.narrow_support nf nl).table.shape
        = List.zipWith (fun a b => (a - b + 1).toNat)
            (List.zipWith min nl
              (List.zipWith (fun f n => f + n - 1) q.first_support
                (q.table.shape.map Int.ofNat)))
            (List.zipWith max q.first_support nf)
    ∧ (q.narrow_support nf nl).table.flat.sum = 1
    ∧ (∀ idx, List.Forall₂ (· < ·) idx (q.narrow_support nf nl).table.shape →
        (q.narrow_support nf nl).table.get idx
          = q.table.get (List.zipWith (· + ·)
              (List.zipWith (fun a b => (a - b).toNat)
                (List.zipWith max q.first_support nf) q.first_support) idx)
            / (q.retained nf nl).flat.sum) := by
  refine ⟨rfl, rfl, narrow_sum_one hs, ?_⟩
  intro idx hidx
  show ((q.retained nf nl).normalize).get idx = _
  rw [Tensor.normalize_get]
  have hidx' : List.Forall₂ (· < ·) idx
      (List.zipWith (fun a b => (a - b + 1).toNat) (q.newLast nl) (q.interFirst nf)) :=
    hidx
  rw [show (q.retained nf nl).get idx
      = q.table.get (List.zipWith (· + ·)
          (List.zipWith (fun a b => (a - b).toNat) (q.interFirst nf) q.first_support) idx)
    from Tensor.shrink_get hidx']
  rfl

/-- Witness for C5: narrowing the three-cell PMF `[1/2, 0, 1/2]` on
`[0, 2]` to the box `[1, 2]`. -/
theorem C5_narrow_semantics_witness :
    ((PMF.mk [0] (Tensor.mk [3] [1/2, 0, 1/2])).narrow_support [1] [2]).first_support
      = List.zipWith max [0] [1]
    ∧ ((PMF.mk [0] (Tensor.mk [3] [1/2, 0, 1/2])).narrow_support [1] [2]).table.flat.sum
      = 1 := by
  have h := C5_narrow_semantics (PMF.mk [0] (Tensor.mk [3] [1/2, 0, 1/2])) [1] [2]
    (by decide) ?_
  · exact ⟨h.1, h.2.2.1⟩
  · have hr : (PMF.mk [0] (Tensor.mk [3] [1/2, 0, 1/2])).retained [1] [2]
        = Tensor.mk [2] [0, 1/2] := rfl
    rw [mass_thresh_eq, hr]
    show (0:ℚ) < ([0, 1/2] : List ℚ).sum
    norm_num

/-- **C6**: requesting `narrow` with a box whose intersection with the
current support is empty along some axis (clamped upper bound strictly
below the clamped lower bound) fails the validated-build assertion —
modelled as returning `none` — and never produces a PMF value. -/
theorem C6_narrow_disjoint_fails (q : PMF) (nf nl : List ℤ)
    (h : ∃ i < nl.length, (q.newLast nl).getD i 0 < (q.interFirst nf).getD i 0) :
    q.narrow_support? nf nl = none := by
  unfold PMF.narrow_support?
  rw [if_neg]
  rintro ⟨h1, h2, h3, h4⟩
  rcases h with ⟨i, hi, hlt⟩
  have := h4 i hi
  omega

/-- Witness for C6: requesting the box `[4, 9]` on a PMF supported on
`[0, 2]`. -/
theorem C6_narrow_disjoint_fails_witness :
    (PMF.mk [0] (Tensor.mk [3] [1/2, 0, 1/2])).narrow_support? [4] [9] = none :=
  C6_narrow_disjoint_fails (PMF.mk [0] (Tensor.mk [3] [1/2, 0, 1/2])) [4] [9]
    ⟨0, by decide, by decide⟩

/-- **C9**: constructing a PMF from a grid whose total mass is not
strictly greater than the zero mass-threshold (in particular an
all-zero grid) fails the validated-build assertion — modelled as
returning `none` — and never yields a PMF value. -/
theorem C9_degenerate_construction_fails (sup : List ℤ) (tab : Tensor)
    (h : tab.flat.sum ≤ PMF.mass_threshold_for_normalization) :
    PMF.construct? sup tab = none := by
  unfold PMF.construct?
  rw [if_neg]
  rintro ⟨h1, h2, h3⟩
  exact absurd h3 (not_lt.mpr h)

/-- Witness for C9: the all-zero two-cell grid. -/
theorem C9_degenerate_construction_fails_witness :
    PMF.construct? [0] (Tensor.mk [2] [0, 0]) = none :=
  C9_degenerate_construction_fails [0] (Tensor.mk [2] [0, 0])
    (by rw [mass_thresh_eq]; show ([0, 0] : List ℚ).sum ≤ 0; norm_num)

theorem Tensor.transpose_transpose_inv {t : Tensor} {order : List ℕ} {d : ℕ}
    (h : IsPermOf order d) (hs : t.shape.length = d) (hwf : t.wf) :
    (t.transpose order).transpose (invPerm order) = t := by
  refine tensor_eq_of_parts ?_ ?_
  · show permute 0 (invPerm order) (permute 0 order t.shape) = t.shape
    exact permute_comp_invPerm 0 h hs
  · have hs1 : permute 0 (invPerm order) (permute 0 order t.shape) = t.shape :=
      permute_comp_invPerm 0 h hs
    calc ((t.transpose order).transpose (invPerm order)).flat
        = (allTuples (permute 0 (invPerm order) (permute 0 order t.shape))).map
            (fun j => (t.transpose order).get (permute 0 (invPerm (invPerm order)) j)) := rfl
      _ = (allTuples t.shape).map
            (fun j => (t.transpose order).get (permute 0 (invPerm (invPerm order)) j)) := by
            rw [hs1]
      _ = (allTuples t.shape).map t.get := by
            apply List.map_congr_left
            intro j hj
            have hjv := mem_allTuples.mp hj
            have hjl : j.length = d := by rw [List.Forall₂.length_eq hjv, hs]
            rw [invPerm_invPerm h,
              Tensor.transpose_get (forall₂_permute h hs hjv),
              permute_comp_invPerm 0 h hjl]
      _ = t.flat := Tensor.map_get_flat hwf

/-- **C7**: for every PMF `q` and every permutation `order` of its
axes, transposing by `order` and then by the inverse permutation
reproduces `q`'s origin vector and grid exactly — transposition never
renormalizes, so there is no drift even in exact arithmetic. -/
theorem C7_transpose_involution (q : PMF) (order : List ℕ)
    (hperm : IsPermOf order q.dimension)
    (hl : q.first_support.length = q.table.shape.length) (hwf : q.table.wf) :
    (q.transposed order).transposed (invPerm order) = q := by
  obtain ⟨fs, tab⟩ := q
  unfold PMF.dimension at hperm
  simp only at hperm hl hwf
  show PMF.mk (permute 0 (invPerm order) (permute 0 order fs))
    ((tab.transpose order).transpose (invPerm order)) = PMF.mk fs tab
  rw [permute_comp_invPerm (0:ℤ) hperm rfl,
    Tensor.transpose_transpose_inv (hl ▸ hperm) rfl hwf]

/-- Witness for C7: swapping the axes of a 2×2 PMF twice. -/
theorem C7_transpose_involution_witness :
    ((PMF.mk [0, 7] (Tensor.mk [2, 2] [1/10, 1/5, 3/10, 2/5])).transposed
        [1, 0]).transposed (invPerm [1, 0])
      = PMF.mk [0, 7] (Tensor.mk [2, 2] [1/10, 1/5, 3/10, 2/5]) :=
  C7_transpose_involution (PMF.mk [0, 7] (Tensor.mk [2, 2] [1/10, 1/5, 3/10, 2/5]))
    [1, 0] (show List.Perm [1, 0] (List.range 2) by decide) rfl rfl

/-- **C10**: `marginal` with an empty `axes_to_keep` vector returns
the canonical rank-0 PMF — the same valid scalar-unit default state
that default construction produces — for every valid PMF and every
parameter `p`.  (A valid dimension-0 PMF is itself the default state,
so the keep-all fast path taken when `dimension() == 0` agrees with
the keep-none path.) -/
theorem C10_marginal_empty (q : PMF) (p : ℚ) (hv : q.Valid) :
    q.marginal [] p = PMF.default
    ∧ PMF.default.dimension = 0 ∧ PMF.Valid PMF.default := by
  refine ⟨?_, rfl, default_valid⟩
  unfold PMF.marginal
  by_cases h1 : ([] : List ℕ).length = q.dimension
  · rw [if_pos h1]
    have hd : q.dimension = 0 := by simpa using h1.symm
    rw [valid_rank0_eq_default hv hd]
    rfl
  · rw [if_neg h1, if_pos List.length_nil]

/-- Witness for C10 at a concrete PMF and parameter. -/
theorem C10_marginal_empty_witness :
    (PMF.mk [0] (Tensor.mk [2] [1/2, 1/2])).marginal [] 5 = PMF.default :=
  (C10_marginal_empty (PMF.mk [0] (Tensor.mk [2] [1/2, 1/2])) 5 valid_half_half).1

end Evergreen
